import Mathlib

/-!
# Corner-table traversal: shallow embedding and verification

Shallow embedding of the corner-table mesh representation and its traversal
primitives (`src/mesh/corner_table/traversal.rs` of the baby_shark repository),
together with theorems settling the frozen claims about vertex/face/edge
iteration, the corner walker, and the one-ring queries.

Conventions of the embedding:
* machine `usize` indices become `Nat`;
* Rust `Option` and panicking `unwrap` calls both become Lean `Option`
  (`none` models either an absent value or a panic, as noted per definition);
* the walker's `opposite` move is embedded with its release-build semantics
  (`debug_assert!` compiled out): on a boundary corner the cursor stays put;
* loops that are not structurally terminating over arbitrary tables take a
  fuel argument; wrappers supply `length + 1` fuel, which suffices for every
  table satisfying the invariants used by the theorems;
* the edge iterator's transient per-corner visited flags (cleared at iterator
  construction) are tracked as an explicit list of visited indices threaded
  through the traversal, starting empty.
-/

namespace BabyShark

/-- One corner record: owning vertex index, next corner in triangle-cyclic
order, optional opposite corner across the shared edge (`none` on a boundary
edge), a deleted flag, and the transient visited flag used only by edge
enumeration. Mirrors the `Corner` connectivity trait data of the source. -/
structure Corner where
  vertex : Nat
  next : Nat
  opposite : Option Nat
  deleted : Bool
  visited : Bool
deriving DecidableEq, Repr

/-- One vertex record: position, index of one incident corner (representative
corner), and a deleted flag. Positions are exact rationals; no claim depends
on floating-point behaviour of positions. -/
structure Vertex where
  position : ℚ × ℚ × ℚ
  corner_index : Nat
  deleted : Bool
deriving DecidableEq, Repr

/-- The corner table: parallel arrays of vertices and corners. -/
structure CornerTable where
  vertices : List Vertex
  corners : List Corner
deriving DecidableEq, Repr

/-- Modelled from the spec: `CornerTable::get_corner` (§4.1) returns the corner
at the index, or `None` when the index is out of range. The Rust body is not
under `src/`; only its contract is specified. -/
def cGet (t : CornerTable) (i : Nat) : Option Corner := t.corners[i]?

/-- Modelled from the spec: `CornerTable::get_vertex` (§4.1), `None` when out
of range. -/
def vGet (t : CornerTable) (v : Nat) : Option Vertex := t.vertices[v]?

/-! ## Walker cursor transitions

Each Rust walker move is embedded as a cursor transition
`CornerTable → Nat → Option Nat`; `none` models a panicking `unwrap` on a
missing corner. -/

/-- `CornerWalker::next`: move to the current corner's next corner. -/
def nextIdx (t : CornerTable) (i : Nat) : Option Nat :=
  (cGet t i).map Corner.next

/-- `CornerWalker::previous`: shorthand for `next().next()`. -/
def prevIdx (t : CornerTable) (i : Nat) : Option Nat :=
  (nextIdx t i).bind (nextIdx t)

/-- `CornerWalker::opposite` with release-build semantics: move to the
opposite corner if it exists, otherwise the cursor stays still (the
`debug_assert!` is compiled out in release builds). -/
def oppositeMove (t : CornerTable) (i : Nat) : Option Nat :=
  (cGet t i).map fun c => c.opposite.getD i

/-- `CornerWalker::right`: `next()` then `opposite()`. -/
def rightMove (t : CornerTable) (i : Nat) : Option Nat :=
  (nextIdx t i).bind (oppositeMove t)

/-- `CornerWalker::left`: `previous()` then `opposite()`. -/
def leftMove (t : CornerTable) (i : Nat) : Option Nat :=
  (prevIdx t i).bind (oppositeMove t)

/-- `CornerWalker::swing_right`: `previous().opposite().previous()`. -/
def swingRightMove (t : CornerTable) (i : Nat) : Option Nat :=
  ((prevIdx t i).bind (oppositeMove t)).bind (prevIdx t)

/-- `CornerWalker::swing_left`: `next().opposite().next()`. -/
def swingLeftMove (t : CornerTable) (i : Nat) : Option Nat :=
  ((nextIdx t i).bind (oppositeMove t)).bind (nextIdx t)

/-- `CornerWalker::can_swing_right`: the previous corner has an opposite. -/
def canSwingRight (t : CornerTable) (i : Nat) : Option Bool :=
  ((prevIdx t i).bind (cGet t)).map fun c => c.opposite.isSome

/-- `CornerWalker::can_swing_left`: the next corner has an opposite. -/
def canSwingLeft (t : CornerTable) (i : Nat) : Option Bool :=
  ((nextIdx t i).bind (cGet t)).map fun c => c.opposite.isSome

/-- `CornerWalker::swing_left_or_stay`: move `next()`, inspect the opposite;
on success jump to it and move `next()` again, returning `true`; otherwise
move `previous()` (back to the start under the three-cycle layout) and return
`false`. Result is the final cursor paired with the returned flag. -/
def swingLeftOrStay (t : CornerTable) (i : Nat) : Option (Nat × Bool) :=
  (nextIdx t i).bind fun j =>
    (cGet t j).bind fun cj =>
      match cj.opposite with
      | some o => (nextIdx t o).map fun k => (k, true)
      | none => (prevIdx t j).map fun k => (k, false)

/-- `CornerWalker::swing_right_or_stay`: symmetric to
`swingLeftOrStay`, using `previous()` and the previous corner's opposite. -/
def swingRightOrStay (t : CornerTable) (i : Nat) : Option (Nat × Bool) :=
  (prevIdx t i).bind fun j =>
    (cGet t j).bind fun cj =>
      match cj.opposite with
      | some o => (prevIdx t o).map fun k => (k, true)
      | none => (nextIdx t j).map fun k => (k, false)

/-- `CornerWalker::from_vertex`: start at the representative corner of the
vertex; the Rust `unwrap` panics (here: `none`) when the vertex index is out
of range. -/
def fromVertexW (t : CornerTable) (v : Nat) : Option Nat :=
  (vGet t v).map Vertex.corner_index

/-- `CornerWalker::get_corner`: the corner under the cursor; the Rust `unwrap`
panics (here: `none`) when the cursor is out of range. -/
def wGetCorner (t : CornerTable) (i : Nat) : Option Corner := cGet t i

/-- `CornerWalker::get_next_corner`: panics when the cursor or the stored next
index is out of range. -/
def wGetNextCorner (t : CornerTable) (i : Nat) : Option Corner :=
  (cGet t i).bind fun c => cGet t c.next

/-- `CornerWalker::get_vertex`: the vertex of the current corner; panics when
the cursor or the stored vertex index is out of range. -/
def wGetVertexOfCorner (t : CornerTable) (i : Nat) : Option Vertex :=
  (cGet t i).bind fun c => vGet t c.vertex

/-! ## The walker as a record (for the frame-effect claim)

The Rust `CornerWalker` holds a shared borrow of the table plus a cursor; the
embedding carries the table value through every move so that the frame claim
"no move mutates the table" is a statement about the embedded state. -/

/-- The walker state: the table it traverses and the current corner index. -/
structure CornerWalker where
  table : CornerTable
  corner_index : Nat
deriving DecidableEq

/-- `CornerWalker::set_current_corner`. -/
def CornerWalker.set_current_corner (w : CornerWalker) (j : Nat) : CornerWalker :=
  CornerWalker.mk w.table j

/-- Walker move `next` on the full state. -/
def CornerWalker.next (w : CornerWalker) : Option CornerWalker :=
  (nextIdx w.table w.corner_index).map (CornerWalker.mk w.table)

/-- Walker move `previous` on the full state. -/
def CornerWalker.previous (w : CornerWalker) : Option CornerWalker :=
  (prevIdx w.table w.corner_index).map (CornerWalker.mk w.table)

/-- Walker move `opposite` (release semantics) on the full state. -/
def CornerWalker.opposite (w : CornerWalker) : Option CornerWalker :=
  (oppositeMove w.table w.corner_index).map (CornerWalker.mk w.table)

/-- Walker move `right` on the full state. -/
def CornerWalker.right (w : CornerWalker) : Option CornerWalker :=
  (rightMove w.table w.corner_index).map (CornerWalker.mk w.table)

/-- Walker move `left` on the full state. -/
def CornerWalker.left (w : CornerWalker) : Option CornerWalker :=
  (leftMove w.table w.corner_index).map (CornerWalker.mk w.table)

/-- Walker move `swing_right` on the full state. -/
def CornerWalker.swing_right (w : CornerWalker) : Option CornerWalker :=
  (swingRightMove w.table w.corner_index).map (CornerWalker.mk w.table)

/-- Walker move `swing_left` on the full state. -/
def CornerWalker.swing_left (w : CornerWalker) : Option CornerWalker :=
  (swingLeftMove w.table w.corner_index).map (CornerWalker.mk w.table)

/-- Walker move `swing_left_or_stay` on the full state. -/
def CornerWalker.swing_left_or_stay (w : CornerWalker) : Option (CornerWalker × Bool) :=
  (swingLeftOrStay w.table w.corner_index).map fun r =>
    (CornerWalker.mk w.table r.1, r.2)

/-- Walker move `swing_right_or_stay` on the full state. -/
def CornerWalker.swing_right_or_stay (w : CornerWalker) : Option (CornerWalker × Bool) :=
  (swingRightOrStay w.table w.corner_index).map fun r =>
    (CornerWalker.mk w.table r.1, r.2)

/-! ## Iterators -/

/-- `CornerTableVerticesIter::next`, unrolled to a full traversal from vertex
index `i`: skip deleted vertices, stop at the first out-of-range index. Fuel
only bounds the recursion; `length + 1` is always enough. -/
def verticesRunF (t : CornerTable) : Nat → Nat → List Nat
  | _, 0 => []
  | i, fuel + 1 =>
    match t.vertices[i]? with
    | none => []
    | some v =>
      if v.deleted then verticesRunF t (i + 1) fuel
      else i :: verticesRunF t (i + 1) fuel

/-- Full traversal of the vertex iterator. -/
def verticesTraversal (t : CornerTable) : List Nat :=
  verticesRunF t 0 (t.vertices.length + 1)

/-- `CornerTableFacesIter::next`, unrolled to a full traversal from corner
index `i`: step by 3, skip a face whose first corner is deleted, stop at the
first out-of-range index. -/
def facesRunF (t : CornerTable) : Nat → Nat → List Nat
  | _, 0 => []
  | i, fuel + 1 =>
    match t.corners[i]? with
    | none => []
    | some c =>
      if c.deleted then facesRunF t (i + 3) fuel
      else i :: facesRunF t (i + 3) fuel

/-- Full traversal of the face iterator. -/
def facesTraversal (t : CornerTable) : List Nat :=
  facesRunF t 0 (t.corners.length + 1)

/-- `CornerTableEdgesIter::next`, unrolled to a full traversal from corner
index `i` with the set `vis` of corners already marked visited this pass:
skip deleted or visited corners; on a yield, mark the corner and (when
present) its opposite visited. The iterator constructor clears all visited
flags, so the traversal starts from the empty visited set. -/
def edgeRunF (t : CornerTable) : Nat → List Nat → Nat → List Nat
  | _, _, 0 => []
  | i, vis, fuel + 1 =>
    match t.corners[i]? with
    | none => []
    | some c =>
      if c.deleted || vis.contains i then edgeRunF t (i + 1) vis fuel
      else
        i :: edgeRunF t (i + 1)
          (i :: (match c.opposite with | some o => [o] | none => []) ++ vis) fuel

/-- Full traversal of the edge iterator (visited flags freshly cleared). -/
def edgesTraversal (t : CornerTable) : List Nat :=
  edgeRunF t 0 [] (t.corners.length + 1)

/-! ## One-ring queries

The two loops of `corners_around_vertex`, `vertices_around_vertex` and
`faces_around_vertex` share their control flow and differ only in what they
pass to the visitor; the common loops are parametrised by the extraction
function `vf` (what the loop body hands to `visit`, `none` modelling a
panicking lookup). -/

/-- First one-ring loop: visit `vf cur`, move `previous()`; if the corner
there has no opposite, stop reporting a reached border; otherwise jump to the
opposite and stop silently when it equals the starting corner `start`. -/
def ringLoop1 (t : CornerTable) (vf : Nat → Option Nat) (start : Nat) :
    Nat → Nat → Option (List Nat × Bool)
  | _, 0 => none
  | cur, fuel + 1 =>
    match vf cur with
    | none => none
    | some x =>
      match prevIdx t cur with
      | none => none
      | some p =>
        match t.corners[p]? with
        | none => none
        | some cp =>
          match cp.opposite with
          | none => some ([x], true)
          | some o =>
            if o = start then some ([x], false)
            else
              match ringLoop1 t vf start o fuel with
              | none => none
              | some r => some (x :: r.1, r.2)

/-- Second one-ring loop (border case): visit `vf cur`, move `next()`; stop
when the corner there has no opposite, else jump to the opposite. -/
def ringLoop2 (t : CornerTable) (vf : Nat → Option Nat) :
    Nat → Nat → Option (List Nat)
  | _, 0 => none
  | cur, fuel + 1 =>
    match vf cur with
    | none => none
    | some x =>
      match nextIdx t cur with
      | none => none
      | some n =>
        match t.corners[n]? with
        | none => none
        | some cn =>
          match cn.opposite with
          | none => some [x]
          | some o =>
            match ringLoop2 t vf o fuel with
            | none => none
            | some r => some (x :: r)

/-- `corners_around_vertex`: start at the representative corner of `v`, move
`previous()`, run the first loop visiting each current corner's next index;
if a border was reached and the starting corner has an opposite, cross it and
run the second loop visiting `next().next()` of each position. -/
def cornersAroundVertexF (t : CornerTable) (v fuel : Nat) : Option (List Nat) :=
  (vGet t v).bind fun vert =>
    (prevIdx t vert.corner_index).bind fun start =>
      (ringLoop1 t (fun c => (cGet t c).map Corner.next) start start fuel).bind
        fun r =>
          if r.2 then
            (cGet t start).bind fun cs =>
              match cs.opposite with
              | none => some r.1
              | some o =>
                (ringLoop2 t (fun c => prevIdx t c) o fuel).map fun vis2 =>
                  r.1 ++ vis2
          else some r.1

/-- `faces_around_vertex`: same walk, visiting the walker position itself in
both loops. -/
def facesAroundVertexF (t : CornerTable) (v fuel : Nat) : Option (List Nat) :=
  (vGet t v).bind fun vert =>
    (prevIdx t vert.corner_index).bind fun start =>
      (ringLoop1 t (fun c => some c) start start fuel).bind fun r =>
        if r.2 then
          (cGet t start).bind fun cs =>
            match cs.opposite with
            | none => some r.1
            | some o =>
              (ringLoop2 t (fun c => some c) o fuel).map fun vis2 =>
                r.1 ++ vis2
        else some r.1

/-- `vertices_around_vertex`: same first loop visiting each position's vertex
index; after a border, restart at `previous()` of the starting corner and run
the second loop (unguarded) visiting each position's vertex index. -/
def verticesAroundVertexF (t : CornerTable) (v fuel : Nat) : Option (List Nat) :=
  (vGet t v).bind fun vert =>
    (prevIdx t vert.corner_index).bind fun start =>
      (ringLoop1 t (fun c => (cGet t c).map Corner.vertex) start start fuel).bind
        fun r =>
          if r.2 then
            (prevIdx t start).bind fun p =>
              (ringLoop2 t (fun c => (cGet t c).map Corner.vertex) p fuel).map
                fun vis2 => r.1 ++ vis2
          else some r.1

/-- `collect_corners_around_vertex`: run the query with ample fuel. -/
def collectCornersAroundVertex (t : CornerTable) (v : Nat) : Option (List Nat) :=
  cornersAroundVertexF t v (t.corners.length + 1)

/-- Collected result of `vertices_around_vertex` with ample fuel. -/
def collectVerticesAroundVertex (t : CornerTable) (v : Nat) : Option (List Nat) :=
  verticesAroundVertexF t v (t.corners.length + 1)

/-- Collected result of `faces_around_vertex` with ample fuel. -/
def collectFacesAroundVertex (t : CornerTable) (v : Nat) : Option (List Nat) :=
  facesAroundVertexF t v (t.corners.length + 1)

/-! ## Structural layout helpers -/

/-- Next corner within a triangle of the standard layout: corners `3k, 3k+1,
3k+2` form one face and `next` is the cyclic successor (spec §3). -/
def nextIdxN (i : Nat) : Nat := 3 * (i / 3) + (i + 1) % 3

/-- Previous corner within a triangle of the standard layout. -/
def prevIdxN (i : Nat) : Nat := 3 * (i / 3) + (i + 2) % 3

/-- Raw opposite field of the corner at an index (`none` when the corner is
missing or has no opposite). -/
def oppAt (t : CornerTable) (i : Nat) : Option Nat :=
  match t.corners[i]? with
  | some c => c.opposite
  | none => none

/-- Vertex index stored at a corner (0 when the corner is missing). -/
def vertexAt (t : CornerTable) (i : Nat) : Nat :=
  match t.corners[i]? with
  | some c => c.vertex
  | none => 0

/-- One swing-left step around a corner's vertex in the standard layout:
cross the opposite of the next corner and take its next corner. -/
def swingLeftN (t : CornerTable) (i : Nat) : Option Nat :=
  (oppAt t (nextIdxN i)).map nextIdxN

/-- One swing-right step around a corner's vertex in the standard layout. -/
def swingRightN (t : CornerTable) (i : Nat) : Option Nat :=
  (oppAt t (prevIdxN i)).map prevIdxN

/-! ## Decidable table invariants -/

/-- Boolean check: corner `j` is a non-deleted corner of vertex `v`. -/
def incidentB (t : CornerTable) (v j : Nat) : Bool :=
  match t.corners[j]? with
  | some c => c.vertex == v && !c.deleted
  | none => false

/-- Boolean check: vertex `v` is stored, non-deleted, with representative
corner `c0`. -/
def vertexRepB (t : CornerTable) (v c0 : Nat) : Bool :=
  match t.vertices[v]? with
  | some vert => !vert.deleted && vert.corner_index == c0
  | none => false

/-- The opposite relation is symmetric and lands in range. -/
def OppositeSymmetric (t : CornerTable) : Prop :=
  ∀ i j, oppAt t i = some j → j < t.corners.length ∧ oppAt t j = some i

/-- Boolean form of `OppositeSymmetric`. -/
def oppSymmB (t : CornerTable) : Bool :=
  (List.range t.corners.length).all fun i =>
    match oppAt t i with
    | none => true
    | some j => decide (j < t.corners.length) && (oppAt t j == some i)

/-- The corners are laid out in whole triangles: the corner count is a
multiple of 3 and every stored `next` index is the cyclic successor within
its block of three (spec §3). -/
def ThreeCornerLayout (t : CornerTable) : Prop :=
  t.corners.length % 3 = 0 ∧
    ∀ i c, t.corners[i]? = some c → c.next = nextIdxN i

/-- Boolean form of `ThreeCornerLayout`. -/
def threeCornerLayoutB (t : CornerTable) : Bool :=
  (t.corners.length % 3 == 0) &&
    ((List.range t.corners.length).all fun i =>
      match t.corners[i]? with
      | some c => c.next == nextIdxN i
      | none => true)

/-- Every non-deleted vertex has a non-deleted representative corner that
references it back (spec §3 vertex invariant). -/
def ValidReps (t : CornerTable) : Prop :=
  ∀ (v : Nat) (vert : Vertex), t.vertices[v]? = some vert → vert.deleted = false →
    ∃ c, t.corners[vert.corner_index]? = some c ∧ c.deleted = false ∧
      c.vertex = v

/-- Boolean form of `ValidReps`. -/
def validRepsB (t : CornerTable) : Bool :=
  (List.range t.vertices.length).all fun v =>
    match (t.vertices[v]? : Option Vertex) with
    | some vert =>
      vert.deleted ||
        (match (t.corners[vert.corner_index]? : Option Corner) with
         | some c => !c.deleted && c.vertex == v
         | none => false)
    | none => true

/-- Swing-left adjacency between two corners. -/
def SwingLeftRel (t : CornerTable) (a b : Nat) : Prop := swingLeftN t a = some b

/-- Swing-right adjacency between two corners. -/
def SwingRightRel (t : CornerTable) (a b : Nat) : Prop := swingRightN t a = some b

/-- Shared part of the single-fan hypotheses: the listed corners are exactly
the non-deleted corners of `v`, without duplicates. -/
def IsFanCore (t : CornerTable) (v : Nat) (fan : List Nat) : Prop :=
  (∀ x ∈ fan, incidentB t v x = true) ∧
    (∀ j ∈ List.range t.corners.length, incidentB t v j = true → j ∈ fan) ∧
    fan.Nodup

/-- Interior vertex: the non-deleted corners of `v` form one closed
swing-left cycle `cs` starting at the representative corner `c0`. -/
def IsFanInterior (t : CornerTable) (v c0 : Nat) (cs : List Nat) : Prop :=
  vertexRepB t v c0 = true ∧ cs ≠ [] ∧ cs.head? = some c0 ∧
    List.Chain' (SwingLeftRel t) cs ∧ swingLeftN t (cs.getLastD 0) = some c0 ∧
    IsFanCore t v cs

/-- Boundary vertex: from the representative corner `c0`, the swing-left
chain `cs` (starting at `c0`) reaches the left border and the swing-right
chain `ds` (continuing from `c0`, possibly empty) reaches the right border;
together they carry all non-deleted corners of `v` without duplicates. -/
def IsFanBoundary (t : CornerTable) (v c0 : Nat) (cs ds : List Nat) : Prop :=
  vertexRepB t v c0 = true ∧ cs ≠ [] ∧ cs.head? = some c0 ∧
    List.Chain' (SwingLeftRel t) cs ∧
    oppAt t (nextIdxN (cs.getLastD 0)) = none ∧
    List.Chain' (SwingRightRel t) (c0 :: ds) ∧
    oppAt t (prevIdxN ((c0 :: ds).getLastD 0)) = none ∧
    IsFanCore t v (cs ++ ds)

/-! ## Construction

Modelled from the spec (§4.1): `from_vertices_and_indices` is not under
`src/`; the spec states that construction builds corners in triangle order,
derives `next` as the cyclic successor within each triangle, matches each
directed half-edge to its reverse to obtain `opposite` (boundary when no
reverse exists, `InvalidTopology` failure when more than one reverse exists),
and stores for each vertex one incident corner. The representative corner is
taken to be the last corner referencing the vertex in build order, the choice
consistent with the spec's concrete one-ring scenarios (§8). -/

/-- Directed half-edge (pair of endpoint vertices) associated to corner `k`:
the edge of its triangle not touching `k`'s vertex. -/
def cornerEdge (indices : List Nat) (k : Nat) : Nat × Nat :=
  (indices.getD (nextIdxN k) 0, indices.getD (nextIdxN (nextIdxN k)) 0)

/-- All corners whose half-edge is the reverse of corner `k`'s half-edge. -/
def oppositeMatches (indices : List Nat) (k : Nat) : List Nat :=
  (List.range indices.length).filter fun j =>
    j ≠ k ∧ cornerEdge indices j = ((cornerEdge indices k).2, (cornerEdge indices k).1)

/-- Modelled from the spec: the opposite of corner `k`, present exactly when
the reverse half-edge match is unique. -/
def oppositeOf (indices : List Nat) (k : Nat) : Option Nat :=
  match oppositeMatches indices k with
  | [j] => some j
  | _ => none

/-- Modelled from the spec: the corner records built from a flat triangle
index list. -/
def mkCorners (indices : List Nat) : List Corner :=
  (List.range indices.length).map fun k =>
    Corner.mk (indices.getD k 0) (nextIdxN k) (oppositeOf indices k) false false

/-- Modelled from the spec: the representative corner of vertex `v` — the
last corner referencing `v` in build order (0 for an isolated vertex). -/
def repCornerOf (indices : List Nat) (v : Nat) : Nat :=
  (List.range indices.length).foldl
    (fun acc k => if indices.getD k 0 = v then k else acc) 0

/-- Modelled from the spec: the corner table built from positions and a flat
triangle index list (total helper; see `fromVerticesAndIndices` for the
failing construction). -/
def mkCornerTable (positions : List (ℚ × ℚ × ℚ)) (indices : List Nat) :
    CornerTable :=
  CornerTable.mk
    ((List.range positions.length).map fun v =>
      Vertex.mk (positions.getD v ((0 : ℚ), (0 : ℚ), (0 : ℚ)))
        (repCornerOf indices v) false)
    (mkCorners indices)

/-- Modelled from the spec: construction fails with `InvalidTopology`
(here `none`) when some half-edge has more than one reverse match. -/
def fromVerticesAndIndices (positions : List (ℚ × ℚ × ℚ))
    (indices : List Nat) : Option CornerTable :=
  if (List.range indices.length).all
      (fun k => (oppositeMatches indices k).length ≤ 1) then
    some (mkCornerTable positions indices)
  else none

/-! ## Concrete meshes -/

/-- The unit-square mesh of `create_unit_square_mesh`: 4 vertices, two
triangles `[0,1,2, 2,3,0]`. -/
def unitSquareMesh : CornerTable :=
  mkCornerTable
    [((0 : ℚ), (1 : ℚ), (0 : ℚ)), ((0 : ℚ), (0 : ℚ), (0 : ℚ)),
     ((1 : ℚ), (0 : ℚ), (0 : ℚ)), ((1 : ℚ), (1 : ℚ), (0 : ℚ))]
    [0, 1, 2, 2, 3, 0]

/-- The cross-square mesh of `create_unit_cross_square_mesh`: 5 vertices with
center vertex 4, four triangles `[0,1,4, 1,2,4, 2,3,4, 3,0,4]`. -/
def crossSquareMesh : CornerTable :=
  mkCornerTable
    [((0 : ℚ), (1 : ℚ), (0 : ℚ)), ((0 : ℚ), (0 : ℚ), (0 : ℚ)),
     ((1 : ℚ), (0 : ℚ), (0 : ℚ)), ((1 : ℚ), (1 : ℚ), (0 : ℚ)),
     ((1 / 2 : ℚ), (1 / 2 : ℚ), (0 : ℚ))]
    [0, 1, 4, 1, 2, 4, 2, 3, 4, 3, 0, 4]

/-- Two triangles sharing only vertex 0 (a non-manifold "bowtie" vertex):
indices `[0,1,2, 0,3,4]`. Satisfies opposite symmetry, the three-corner
layout and valid representative corners, but vertex 0's corners form two
disjoint fans. -/
def bowtieMesh : CornerTable :=
  mkCornerTable
    [((0 : ℚ), (0 : ℚ), (0 : ℚ)), ((1 : ℚ), (0 : ℚ), (0 : ℚ)),
     ((0 : ℚ), (1 : ℚ), (0 : ℚ)), ((-1 : ℚ), (0 : ℚ), (0 : ℚ)),
     ((0 : ℚ), (-1 : ℚ), (0 : ℚ))]
    [0, 1, 2, 0, 3, 4]

/-- A table whose single face has its first corner deleted but its other two
corners alive: the face is not deleted under the "all three corners deleted"
definition, yet the face iterator skips it. -/
def faceCexTable : CornerTable :=
  CornerTable.mk
    [Vertex.mk ((0 : ℚ), (0 : ℚ), (0 : ℚ)) 0 false,
     Vertex.mk ((1 : ℚ), (0 : ℚ), (0 : ℚ)) 1 false,
     Vertex.mk ((0 : ℚ), (1 : ℚ), (0 : ℚ)) 2 false]
    [Corner.mk 0 1 none true false,
     Corner.mk 1 2 none false false,
     Corner.mk 2 0 none false false]

/-- A table with two faces, the first fully deleted, the second alive (used
to witness the amended face-iteration claim on a table with deletions). -/
def faceWitTable : CornerTable :=
  CornerTable.mk
    [Vertex.mk ((0 : ℚ), (0 : ℚ), (0 : ℚ)) 3 false,
     Vertex.mk ((1 : ℚ), (0 : ℚ), (0 : ℚ)) 4 false,
     Vertex.mk ((0 : ℚ), (1 : ℚ), (0 : ℚ)) 5 false]
    [Corner.mk 0 1 none true false,
     Corner.mk 1 2 none true false,
     Corner.mk 2 0 none true false,
     Corner.mk 0 4 none false false,
     Corner.mk 1 5 none false false,
     Corner.mk 2 3 none false false]

/-- Deleted flag of the vertex at an index (`true` when missing). -/
def vDeletedB (t : CornerTable) (i : Nat) : Bool :=
  match t.vertices[i]? with
  | some v => v.deleted
  | none => true

/-- Deleted flag of the corner at an index (`true` when missing). -/
def cDeletedB (t : CornerTable) (i : Nat) : Bool :=
  match t.corners[i]? with
  | some c => c.deleted
  | none => true

/-- A face is deleted when all three of its corners are marked deleted
(spec §3). -/
def faceDeletedB (t : CornerTable) (f : Nat) : Bool :=
  cDeletedB t f && cDeletedB t (f + 1) && cDeletedB t (f + 2)

/-- Boolean check: every stored `next` index is in range. -/
def nextRangeB (t : CornerTable) : Bool :=
  (List.range t.corners.length).all fun j =>
    match (t.corners[j]? : Option Corner) with
    | some c => decide (c.next < t.corners.length)
    | none => true

/-- Boolean check: every stored `opposite` index is in range. -/
def oppRangeB (t : CornerTable) : Bool :=
  (List.range t.corners.length).all fun j =>
    match (t.corners[j]? : Option Corner) with
    | some c =>
      match c.opposite with
      | some o => decide (o < t.corners.length)
      | none => true
    | none => true

/-- Boolean check: following `next` three times returns to the start
wherever all three lookups succeed. -/
def cyc3B (t : CornerTable) : Bool :=
  (List.range t.corners.length).all fun j =>
    match (t.corners[j]? : Option Corner) with
    | none => true
    | some c =>
      match (t.corners[c.next]? : Option Corner) with
      | none => true
      | some c1 =>
        match (t.corners[c1.next]? : Option Corner) with
        | none => true
        | some c2 => c2.next == j

/-- Decidability of the swing-left adjacency. -/
instance (t : CornerTable) : DecidableRel (SwingLeftRel t) := fun a b =>
  inferInstanceAs (Decidable (swingLeftN t a = some b))

/-- Decidability of the swing-right adjacency. -/
instance (t : CornerTable) : DecidableRel (SwingRightRel t) := fun a b =>
  inferInstanceAs (Decidable (swingRightN t a = some b))

/-- Structural decidability for `List.Chain` of a decidable relation,
reducing in the kernel. -/
def decidableChainNat (R : Nat → Nat → Prop) [inst : DecidableRel R] :
    (a : Nat) → (l : List Nat) → Decidable (List.Chain R a l)
  | _, [] => isTrue List.Chain.nil
  | a, b :: l =>
    match inst a b, decidableChainNat R b l with
    | isTrue h1, isTrue h2 => isTrue (List.Chain.cons h1 h2)
    | isFalse h1, _ => isFalse fun hc => h1 (List.chain_cons.mp hc).1
    | _, isFalse h2 => isFalse fun hc => h2 (List.chain_cons.mp hc).2

/-- Structural decidability for `List.Chain'`, reducing in the kernel. -/
instance decidableChainNat' (R : Nat → Nat → Prop) [DecidableRel R] :
    (l : List Nat) → Decidable (List.Chain' R l)
  | [] => isTrue List.chain'_nil
  | a :: l => decidableChainNat R a l

/-- Decidability of the shared fan hypothesis. -/
instance (t : CornerTable) (v : Nat) (fan : List Nat) :
    Decidable (IsFanCore t v fan) :=
  inferInstanceAs (Decidable ((∀ x ∈ fan, incidentB t v x = true) ∧
    (∀ j ∈ List.range t.corners.length, incidentB t v j = true → j ∈ fan) ∧
    fan.Nodup))

/-- Decidability of the interior-fan hypothesis. -/
instance (t : CornerTable) (v c0 : Nat) (cs : List Nat) :
    Decidable (IsFanInterior t v c0 cs) :=
  inferInstanceAs (Decidable (vertexRepB t v c0 = true ∧ cs ≠ [] ∧
    cs.head? = some c0 ∧ List.Chain' (SwingLeftRel t) cs ∧
    swingLeftN t (cs.getLastD 0) = some c0 ∧ IsFanCore t v cs))

/-- Decidability of the boundary-fan hypothesis. -/
instance (t : CornerTable) (v c0 : Nat) (cs ds : List Nat) :
    Decidable (IsFanBoundary t v c0 cs ds) :=
  inferInstanceAs (Decidable (vertexRepB t v c0 = true ∧ cs ≠ [] ∧
    cs.head? = some c0 ∧ List.Chain' (SwingLeftRel t) cs ∧
    oppAt t (nextIdxN (cs.getLastD 0)) = none ∧
    List.Chain' (SwingRightRel t) (c0 :: ds) ∧
    oppAt t (prevIdxN ((c0 :: ds).getLastD 0)) = none ∧
    IsFanCore t v (cs ++ ds)))


/-! ## Triangle-layout arithmetic -/

theorem nextIdxN_nextIdxN (i : Nat) : nextIdxN (nextIdxN i) = prevIdxN i := by
  unfold nextIdxN prevIdxN; omega

theorem prevIdxN_prevIdxN (i : Nat) : prevIdxN (prevIdxN i) = nextIdxN i := by
  unfold nextIdxN prevIdxN; omega

theorem nextIdxN_prevIdxN (i : Nat) : nextIdxN (prevIdxN i) = i := by
  unfold nextIdxN prevIdxN; omega

theorem prevIdxN_nextIdxN (i : Nat) : prevIdxN (nextIdxN i) = i := by
  unfold nextIdxN prevIdxN; omega

theorem prevIdxN_inj {a b : Nat} (h : prevIdxN a = prevIdxN b) : a = b := by
  have := congrArg nextIdxN h
  rwa [nextIdxN_prevIdxN, nextIdxN_prevIdxN] at this

theorem nextIdxN_lt {L i : Nat} (hL : L % 3 = 0) (h : i < L) : nextIdxN i < L := by
  unfold nextIdxN; omega

theorem prevIdxN_lt {L i : Nat} (hL : L % 3 = 0) (h : i < L) : prevIdxN i < L := by
  unfold prevIdxN; omega

theorem nextIdxN_div3 (i : Nat) : nextIdxN i / 3 = i / 3 := by
  unfold nextIdxN; omega

theorem prevIdxN_div3 (i : Nat) : prevIdxN i / 3 = i / 3 := by
  unfold prevIdxN; omega

/-! ## Bridges from the boolean invariant checks to their propositional forms -/

theorem oppSymm_of_bool {t : CornerTable} (h : oppSymmB t = true) :
    OppositeSymmetric t := by
  intro i j hij
  have hi : i < t.corners.length := by
    unfold oppAt at hij
    cases hc : t.corners[i]? with
    | none => rw [hc] at hij; cases hij
    | some c => exact (List.getElem?_eq_some.mp hc).1
  have := (List.all_eq_true.mp h) i (List.mem_range.mpr hi)
  rw [hij] at this
  simp only [Bool.and_eq_true, decide_eq_true_eq, beq_iff_eq] at this
  exact this

theorem threeLayout_of_bool {t : CornerTable} (h : threeCornerLayoutB t = true) :
    ThreeCornerLayout t := by
  unfold threeCornerLayoutB at h
  simp only [Bool.and_eq_true, beq_iff_eq] at h
  refine ⟨h.1, ?_⟩
  intro i c hc
  have hi : i < t.corners.length := (List.getElem?_eq_some.mp hc).1
  have := (List.all_eq_true.mp h.2) i (List.mem_range.mpr hi)
  rw [hc] at this
  simpa using this

theorem validReps_of_bool {t : CornerTable} (h : validRepsB t = true) :
    ValidReps t := by
  intro v vert hv hdel
  have hvlt : v < t.vertices.length := (List.getElem?_eq_some.mp hv).1
  have := (List.all_eq_true.mp h) v (List.mem_range.mpr hvlt)
  rw [hv] at this
  simp only [hdel, Bool.false_or] at this
  cases hc : t.corners[vert.corner_index]? with
  | none => rw [hc] at this; cases this
  | some c =>
    rw [hc] at this
    simp only [Bool.and_eq_true, Bool.not_eq_true', beq_iff_eq] at this
    exact ⟨c, rfl, this.1, this.2⟩

theorem nextRange_of_bool {t : CornerTable} (h : nextRangeB t = true) :
    ∀ (j : Nat) (c : Corner), t.corners[j]? = some c → c.next < t.corners.length := by
  intro j c hc
  have hj : j < t.corners.length := (List.getElem?_eq_some.mp hc).1
  have := (List.all_eq_true.mp h) j (List.mem_range.mpr hj)
  rw [hc] at this
  simpa using this

theorem oppRange_of_bool {t : CornerTable} (h : oppRangeB t = true) :
    ∀ (j : Nat) (c : Corner) (o : Nat), t.corners[j]? = some c → c.opposite = some o →
      o < t.corners.length := by
  intro j c o hc ho
  have hj : j < t.corners.length := (List.getElem?_eq_some.mp hc).1
  have := (List.all_eq_true.mp h) j (List.mem_range.mpr hj)
  rw [hc] at this
  simp only [ho, decide_eq_true_eq] at this
  exact this

theorem cyc3_of_bool {t : CornerTable} (h : cyc3B t = true) :
    ∀ (j : Nat) (c c1 c2 : Corner), t.corners[j]? = some c → t.corners[c.next]? = some c1 →
      t.corners[c1.next]? = some c2 → c2.next = j := by
  intro j c c1 c2 hc hc1 hc2
  have hj : j < t.corners.length := (List.getElem?_eq_some.mp hc).1
  have := (List.all_eq_true.mp h) j (List.mem_range.mpr hj)
  rw [hc] at this
  simp only [hc1, hc2, beq_iff_eq] at this
  exact this

theorem vertexRep_of_bool {t : CornerTable} {v c0 : Nat}
    (h : vertexRepB t v c0 = true) :
    ∃ vert, t.vertices[v]? = some vert ∧ vert.deleted = false ∧
      vert.corner_index = c0 := by
  unfold vertexRepB at h
  cases hv : t.vertices[v]? with
  | none => rw [hv] at h; cases h
  | some vert =>
    rw [hv] at h
    simp only [Bool.and_eq_true, Bool.not_eq_true', beq_iff_eq] at h
    exact ⟨vert, rfl, h.1, h.2⟩

theorem incident_of_bool {t : CornerTable} {v j : Nat}
    (h : incidentB t v j = true) :
    ∃ c, t.corners[j]? = some c ∧ c.vertex = v ∧ c.deleted = false := by
  unfold incidentB at h
  cases hc : t.corners[j]? with
  | none => rw [hc] at h; cases h
  | some c =>
    rw [hc] at h
    simp only [Bool.and_eq_true, Bool.not_eq_true', beq_iff_eq] at h
    exact ⟨c, rfl, h.1, h.2⟩

theorem incident_lt {t : CornerTable} {v j : Nat}
    (h : incidentB t v j = true) : j < t.corners.length := by
  obtain ⟨c, hc, -, -⟩ := incident_of_bool h
  exact (List.getElem?_eq_some.mp hc).1

/-! ## Frame helpers -/

theorem table_of_map_mk (t : CornerTable) (o : Option Nat) :
    (o.map (CornerWalker.mk t)).elim True fun w2 => w2.table = t := by
  cases o <;> simp

theorem table_of_map_mk2 (t : CornerTable) (o : Option (Nat × Bool)) :
    ((o.map fun r => (CornerWalker.mk t r.1, r.2)).elim True
      fun p => p.1.table = t) := by
  cases o <;> simp

/-! ## Claim C4 -/

/-- C4: on the embedded cursor-transition functions, `previous` is `next`
composed with `next`, `right` is `next` then `opposite`, and `left` is
`previous` then `opposite`, at every corner table and cursor. -/
theorem c4_walker_move_equations :
    ∀ (t : CornerTable) (i : Nat),
      prevIdx t i = (nextIdx t i).bind (nextIdx t) ∧
      rightMove t i = (nextIdx t i).bind (oppositeMove t) ∧
      leftMove t i = (prevIdx t i).bind (oppositeMove t) :=
  fun _ _ => ⟨rfl, rfl, rfl⟩

/-! ## Claim C8 -/

/-- C8: every walker move — `next`, `previous`, `opposite`, `left`, `right`,
`swing_left`, `swing_right`, `swing_left_or_stay`, `swing_right_or_stay`,
`set_current_corner` — leaves the corner table component of the walker state
(hence every vertex, corner and flag) unchanged; only the cursor changes. -/
theorem c8_walker_moves_frame :
    ∀ (w : CornerWalker) (j : Nat),
      (w.set_current_corner j).table = w.table ∧
      (w.next.elim True fun w2 => w2.table = w.table) ∧
      (w.previous.elim True fun w2 => w2.table = w.table) ∧
      (w.opposite.elim True fun w2 => w2.table = w.table) ∧
      (w.left.elim True fun w2 => w2.table = w.table) ∧
      (w.right.elim True fun w2 => w2.table = w.table) ∧
      (w.swing_left.elim True fun w2 => w2.table = w.table) ∧
      (w.swing_right.elim True fun w2 => w2.table = w.table) ∧
      (w.swing_left_or_stay.elim True fun p => p.1.table = w.table) ∧
      (w.swing_right_or_stay.elim True fun p => p.1.table = w.table) :=
  fun w _ =>
    ⟨rfl, table_of_map_mk w.table _, table_of_map_mk w.table _,
     table_of_map_mk w.table _, table_of_map_mk w.table _,
     table_of_map_mk w.table _, table_of_map_mk w.table _,
     table_of_map_mk w.table _, table_of_map_mk2 w.table _,
     table_of_map_mk2 w.table _⟩

/-! ## Claim C9 -/

/-- C9: with the release-build semantics of `CornerWalker::opposite` (the
debug assertion compiled out), calling `opposite` on a corner with no
opposite returns normally and leaves the cursor unchanged. -/
theorem c9_opposite_boundary_stays :
    ∀ (t : CornerTable) (i : Nat) (c : Corner),
      cGet t i = some c → c.opposite = none → oppositeMove t i = some i := by
  intro t i c hc hop
  simp [oppositeMove, hc, hop]

/-- Witness for C9 at corner 0 of the unit square (a boundary corner). -/
theorem c9_opposite_boundary_stays_witness :
    oppositeMove unitSquareMesh 0 = some 0 :=
  c9_opposite_boundary_stays unitSquareMesh 0 (Corner.mk 0 1 none false false)
    (by decide) (by decide)

/-! ## Claim C10 -/

/-- C10: `from_vertex` on an out-of-range vertex index panics (`none`), the
walker accessors panic when the cursor or a referenced index is out of range,
the table queries `get_corner`/`get_vertex` merely return `none` on a bad
index, and all walker accessors are total under in-range preconditions. -/
theorem c10_walker_partiality :
    (∀ (t : CornerTable) (v : Nat), t.vertices.length ≤ v →
      fromVertexW t v = none) ∧
    (∀ (t : CornerTable) (i : Nat), t.corners.length ≤ i → cGet t i = none) ∧
    (∀ (t : CornerTable) (v : Nat), t.vertices.length ≤ v → vGet t v = none) ∧
    (∀ (t : CornerTable) (i : Nat), t.corners.length ≤ i →
      wGetCorner t i = none ∧ wGetNextCorner t i = none ∧
      wGetVertexOfCorner t i = none) ∧
    (∀ (t : CornerTable) (v : Nat) (vert : Vertex),
      t.vertices[v]? = some vert → fromVertexW t v = some vert.corner_index) ∧
    (∀ (t : CornerTable) (i : Nat) (c : Corner), t.corners[i]? = some c →
      (wGetCorner t i).isSome ∧
      (c.next < t.corners.length → (wGetNextCorner t i).isSome) ∧
      (c.vertex < t.vertices.length → (wGetVertexOfCorner t i).isSome)) := by
  refine ⟨?_, ?_, ?_, ?_, ?_, ?_⟩
  · intro t v h; simp [fromVertexW, vGet, List.getElem?_eq_none h]
  · intro t i h; simp [cGet, List.getElem?_eq_none h]
  · intro t v h; simp [vGet, List.getElem?_eq_none h]
  · intro t i h
    refine ⟨?_, ?_, ?_⟩ <;>
      simp [wGetCorner, wGetNextCorner, wGetVertexOfCorner, cGet,
        List.getElem?_eq_none h]
  · intro t v vert hv; simp [fromVertexW, vGet, hv]
  · intro t i c hc
    refine ⟨?_, ?_, ?_⟩
    · simp [wGetCorner, cGet, hc]
    · intro hn
      simp [wGetNextCorner, cGet, hc, List.getElem?_eq_getElem hn]
    · intro hv
      simp [wGetVertexOfCorner, cGet, vGet, hc, List.getElem?_eq_getElem hv]

/-- Witness for C10: out-of-range panics and in-range totality at the unit
square. -/
theorem c10_walker_partiality_witness :
    fromVertexW unitSquareMesh 10 = none ∧
    cGet unitSquareMesh 6 = none ∧
    wGetNextCorner unitSquareMesh 6 = none ∧
    fromVertexW unitSquareMesh 0 = some 5 ∧
    (wGetNextCorner unitSquareMesh 0).isSome = true := by
  refine ⟨c10_walker_partiality.1 unitSquareMesh 10 (by decide),
    c10_walker_partiality.2.1 unitSquareMesh 6 (by decide),
    (c10_walker_partiality.2.2.2.1 unitSquareMesh 6 (by decide)).2.1,
    ?_, ?_⟩
  · have := c10_walker_partiality.2.2.2.2.1 unitSquareMesh 0
      (Vertex.mk ((0 : ℚ), (1 : ℚ), (0 : ℚ)) 5 false) (by decide)
    simpa using this
  · exact (c10_walker_partiality.2.2.2.2.2 unitSquareMesh 0
      (Corner.mk 0 1 none false false) (by decide)).2.1 (by decide)

/-! ## Claim C6: vertex iteration -/

theorem verticesRunF_eq_filter (t : CornerTable) :
    ∀ (fuel i : Nat), t.vertices.length ≤ i + fuel →
      verticesRunF t i fuel =
        (List.range' i (t.vertices.length - i)).filter fun j => !vDeletedB t j := by
  intro fuel
  induction fuel with
  | zero =>
    intro i h
    have h0 : t.vertices.length - i = 0 := by omega
    simp [verticesRunF, h0]
  | succ fuel ih =>
    intro i h
    cases hv : t.vertices[i]? with
    | none =>
      have hlen : t.vertices.length ≤ i := by
        by_contra hlt
        push_neg at hlt
        rw [List.getElem?_eq_getElem hlt] at hv
        cases hv
      have h0 : t.vertices.length - i = 0 := by omega
      simp [verticesRunF, hv, h0]
    | some v =>
      have hlt : i < t.vertices.length := (List.getElem?_eq_some.mp hv).1
      have hsub : t.vertices.length - i = (t.vertices.length - (i + 1)) + 1 := by
        omega
      have hdel : vDeletedB t i = v.deleted := by simp [vDeletedB, hv]
      rw [hsub, List.range'_succ, List.filter_cons]
      cases hd : v.deleted with
      | true =>
        have hrun : verticesRunF t i (fuel + 1) = verticesRunF t (i + 1) fuel := by
          simp [verticesRunF, hv, hd]
        rw [hrun, ih (i + 1) (by omega)]
        simp [hdel, hd]
      | false =>
        have hrun : verticesRunF t i (fuel + 1) =
            i :: verticesRunF t (i + 1) fuel := by
          simp [verticesRunF, hv, hd]
        rw [hrun, ih (i + 1) (by omega)]
        simp [hdel, hd]

/-- C6: a full traversal of the vertex iterator yields exactly the indices of
the non-deleted vertices — it equals the filter of the index range by the
non-deleted predicate, is strictly increasing (hence each index exactly
once), and contains an index iff it is a stored, non-deleted vertex (so it
terminates after the last stored vertex). -/
theorem c6_vertex_iteration :
    ∀ t : CornerTable,
      verticesTraversal t =
        (List.range t.vertices.length).filter (fun j => !vDeletedB t j) ∧
      List.Pairwise (· < ·) (verticesTraversal t) ∧
      (verticesTraversal t).Nodup ∧
      ∀ j : Nat, j ∈ verticesTraversal t ↔
        j < t.vertices.length ∧ vDeletedB t j = false := by
  intro t
  have heq : verticesTraversal t =
      (List.range t.vertices.length).filter fun j => !vDeletedB t j := by
    rw [verticesTraversal, verticesRunF_eq_filter t (t.vertices.length + 1) 0
      (by omega), List.range_eq_range']
    simp
  have hpair : List.Pairwise (· < ·) (verticesTraversal t) := by
    rw [heq]
    exact List.Pairwise.sublist (List.filter_sublist _) (List.pairwise_lt_range _)
  refine ⟨heq, hpair, hpair.imp Nat.ne_of_lt, ?_⟩
  intro j
  rw [heq, List.mem_filter, List.mem_range]
  simp [Bool.not_eq_true']

/-! ## Claim C5: face iteration -/

theorem facesRunF_elements (t : CornerTable) :
    ∀ (fuel i : Nat), ∀ j ∈ facesRunF t i fuel,
      i ≤ j ∧ j < t.corners.length ∧ (j - i) % 3 = 0 ∧
        cDeletedB t j = false := by
  intro fuel
  induction fuel with
  | zero =>
    intro i j hj
    simp [facesRunF] at hj
  | succ fuel ih =>
    intro i j hj
    cases hc : t.corners[i]? with
    | none => simp [facesRunF, hc] at hj
    | some c =>
      have hi : i < t.corners.length := (List.getElem?_eq_some.mp hc).1
      cases hd : c.deleted with
      | true =>
        rw [show facesRunF t i (fuel + 1) = facesRunF t (i + 3) fuel by
          simp [facesRunF, hc, hd]] at hj
        obtain ⟨h1, h2, h3, h4⟩ := ih (i + 3) j hj
        exact ⟨by omega, h2, by omega, h4⟩
      | false =>
        rw [show facesRunF t i (fuel + 1) = i :: facesRunF t (i + 3) fuel by
          simp [facesRunF, hc, hd]] at hj
        rcases List.mem_cons.mp hj with rfl | hj2
        · exact ⟨le_refl _, hi, by omega, by simp [cDeletedB, hc, hd]⟩
        · obtain ⟨h1, h2, h3, h4⟩ := ih (i + 3) j hj2
          exact ⟨by omega, h2, by omega, h4⟩

theorem facesRunF_complete (t : CornerTable) :
    ∀ (fuel i j : Nat), t.corners.length ≤ i + 3 * fuel →
      i ≤ j → j < t.corners.length → (j - i) % 3 = 0 →
      cDeletedB t j = false → j ∈ facesRunF t i fuel := by
  intro fuel
  induction fuel with
  | zero => intro i j hf h1 h2 _ _; omega
  | succ fuel ih =>
    intro i j hf h1 h2 h3 h4
    have hi : i < t.corners.length := by omega
    obtain ⟨c, hc⟩ : ∃ c, t.corners[i]? = some c :=
      ⟨_, List.getElem?_eq_getElem hi⟩
    cases hd : c.deleted with
    | true =>
      rw [show facesRunF t i (fuel + 1) = facesRunF t (i + 3) fuel by
        simp [facesRunF, hc, hd]]
      have hne : j ≠ i := by
        intro hji
        rw [hji] at h4
        simp [cDeletedB, hc, hd] at h4
      exact ih (i + 3) j (by omega) (by omega) h2 (by omega) h4
    | false =>
      rw [show facesRunF t i (fuel + 1) = i :: facesRunF t (i + 3) fuel by
        simp [facesRunF, hc, hd]]
      rcases Nat.eq_or_lt_of_le h1 with rfl | hlt
      · exact List.mem_cons_self _ _
      · have hj3 : i + 3 ≤ j := by omega
        exact List.mem_cons_of_mem _
          (ih (i + 3) j (by omega) hj3 h2 (by omega) h4)

theorem facesRunF_sorted (t : CornerTable) :
    ∀ (fuel i : Nat), List.Pairwise (· < ·) (facesRunF t i fuel) := by
  intro fuel
  induction fuel with
  | zero => intro i; simp [facesRunF]
  | succ fuel ih =>
    intro i
    cases hc : t.corners[i]? with
    | none => simp [facesRunF, hc]
    | some c =>
      cases hd : c.deleted with
      | true =>
        rw [show facesRunF t i (fuel + 1) = facesRunF t (i + 3) fuel by
          simp [facesRunF, hc, hd]]
        exact ih (i + 3)
      | false =>
        rw [show facesRunF t i (fuel + 1) = i :: facesRunF t (i + 3) fuel by
          simp [facesRunF, hc, hd]]
        refine List.Pairwise.cons ?_ (ih (i + 3))
        intro b hb
        have := (facesRunF_elements t fuel (i + 3) b hb).1
        omega

/-- C5 (amended): on a table whose corners form whole triangles and whose
three corners of each face share one deleted status, a full traversal of the
face iterator yields exactly one representative corner (the face's first
corner index, a multiple of 3) per non-deleted face — membership holds iff
the index is an in-range multiple of 3 whose face is not deleted — and the
yielded indices are strictly increasing (hence no face repeats). -/
theorem c5_face_iteration_amended (t : CornerTable)
    (hlen3 : t.corners.length % 3 = 0)
    (hcons : ∀ i ∈ List.range t.corners.length,
      ∀ j ∈ List.range t.corners.length,
        i / 3 = j / 3 → cDeletedB t i = cDeletedB t j) :
    (∀ j : Nat, j ∈ facesTraversal t ↔
      j < t.corners.length ∧ j % 3 = 0 ∧ faceDeletedB t j = false) ∧
    List.Pairwise (· < ·) (facesTraversal t) ∧
    (facesTraversal t).Nodup := by
  have hsorted : List.Pairwise (· < ·) (facesTraversal t) :=
    facesRunF_sorted t _ 0
  refine ⟨?_, hsorted, hsorted.imp Nat.ne_of_lt⟩
  intro j
  constructor
  · intro hj
    obtain ⟨h1, h2, h3, h4⟩ := facesRunF_elements t _ 0 j hj
    refine ⟨h2, by omega, ?_⟩
    unfold faceDeletedB
    simp [h4]
  · rintro ⟨h1, h2, h3⟩
    have hj1 : j + 1 < t.corners.length := by omega
    have hj2 : j + 2 < t.corners.length := by omega
    have e1 : cDeletedB t (j + 1) = cDeletedB t j :=
      hcons (j + 1) (List.mem_range.mpr hj1) j (List.mem_range.mpr h1)
        (by omega)
    have e2 : cDeletedB t (j + 2) = cDeletedB t j :=
      hcons (j + 2) (List.mem_range.mpr hj2) j (List.mem_range.mpr h1)
        (by omega)
    unfold faceDeletedB at h3
    rw [e1, e2] at h3
    have h4 : cDeletedB t j = false := by
      cases hcd : cDeletedB t j with
      | true => rw [hcd] at h3; simp at h3
      | false => rfl
    exact facesRunF_complete t _ 0 j (by omega) (by omega) h1 (by omega) h4

/-- Counterexample to C5 as stated: the table `faceCexTable` has one face
whose first corner is deleted but whose other two corners are alive, so the
face is not deleted under the claim's "all three corners deleted" definition;
yet the face iterator yields nothing, skipping that non-deleted face. -/
theorem c5_face_iteration_counterexample :
    facesTraversal faceCexTable = [] ∧
    faceDeletedB faceCexTable 0 = false ∧
    faceCexTable.corners.length = 3 := by
  refine ⟨by rfl, by decide, by decide⟩

/-- Witness for the amended C5 on a table with one fully deleted face and one
alive face. -/
theorem c5_face_iteration_witness :
    3 ∈ facesTraversal faceWitTable ∧
    List.Pairwise (· < ·) (facesTraversal faceWitTable) := by
  have h := c5_face_iteration_amended faceWitTable (by decide) (by decide)
  exact ⟨(h.1 3).mpr (by decide), h.2.1⟩

/-! ## Claim C3: swing-or-stay -/

/-- C3: on a table with in-range `next`/`opposite` indices whose next-chains
are 3-cycles, `swing_left_or_stay` returns `true` exactly when
`can_swing_left` holds, returns `false` with the cursor back at its starting
index otherwise, and never panics; symmetrically for `swing_right_or_stay`
and `can_swing_right`. -/
theorem c3_swing_or_stay (t : CornerTable) (i : Nat)
    (hi : i < t.corners.length)
    (hnextR : ∀ (j : Nat) (c : Corner), t.corners[j]? = some c →
      c.next < t.corners.length)
    (hcyc : ∀ (j : Nat) (c c1 c2 : Corner), t.corners[j]? = some c →
      t.corners[c.next]? = some c1 → t.corners[c1.next]? = some c2 →
      c2.next = j)
    (hoppR : ∀ (j : Nat) (c : Corner) (o : Nat), t.corners[j]? = some c →
      c.opposite = some o → o < t.corners.length) :
    ((swingLeftOrStay t i).map Prod.snd = canSwingLeft t i ∧
     (∀ k : Nat, swingLeftOrStay t i = some (k, false) → k = i) ∧
     (swingLeftOrStay t i).isSome = true) ∧
    ((swingRightOrStay t i).map Prod.snd = canSwingRight t i ∧
     (∀ k : Nat, swingRightOrStay t i = some (k, false) → k = i) ∧
     (swingRightOrStay t i).isSome = true) := by
  obtain ⟨c, hc⟩ : ∃ c, t.corners[i]? = some c :=
    ⟨_, List.getElem?_eq_getElem hi⟩
  obtain ⟨c1, hc1⟩ : ∃ c1, t.corners[c.next]? = some c1 :=
    ⟨_, List.getElem?_eq_getElem (hnextR i c hc)⟩
  obtain ⟨c2, hc2⟩ : ∃ c2, t.corners[c1.next]? = some c2 :=
    ⟨_, List.getElem?_eq_getElem (hnextR _ c1 hc1)⟩
  have hnexti : nextIdx t i = some c.next := by simp [nextIdx, cGet, hc]
  have hprevi : prevIdx t i = some c1.next := by
    simp [prevIdx, nextIdx, cGet, hc, hc1]
  constructor
  · -- swing left
    cases ho : c1.opposite with
    | some o =>
      obtain ⟨co, hco⟩ : ∃ co, t.corners[o]? = some co :=
        ⟨_, List.getElem?_eq_getElem (hoppR _ c1 o hc1 ho)⟩
      have hrun : swingLeftOrStay t i = some (co.next, true) := by
        simp [swingLeftOrStay, nextIdx, cGet, hc, hc1, ho, hco]
      have hcan : canSwingLeft t i = some true := by
        simp [canSwingLeft, nextIdx, cGet, hc, hc1, ho]
      rw [hrun, hcan]
      refine ⟨rfl, ?_, rfl⟩
      intro k hk
      simp at hk
    | none =>
      have hrun : swingLeftOrStay t i = some (c2.next, false) := by
        simp [swingLeftOrStay, prevIdx, nextIdx, cGet, hc, hc1, ho, hc2]
      have hcan : canSwingLeft t i = some false := by
        simp [canSwingLeft, nextIdx, cGet, hc, hc1, ho]
      have h2i : c2.next = i := hcyc i c c1 c2 hc hc1 hc2
      rw [hrun, hcan, h2i]
      refine ⟨rfl, ?_, rfl⟩
      intro k hk
      simp at hk
      omega
  · -- swing right
    obtain ⟨cp, hcp⟩ : ∃ cp, t.corners[c1.next]? = some cp := ⟨c2, hc2⟩
    cases ho : c2.opposite with
    | some o =>
      obtain ⟨co, hco⟩ : ∃ co, t.corners[o]? = some co :=
        ⟨_, List.getElem?_eq_getElem (hoppR _ c2 o hc2 ho)⟩
      obtain ⟨co2, hco2⟩ : ∃ co2, t.corners[co.next]? = some co2 :=
        ⟨_, List.getElem?_eq_getElem (hnextR _ co hco)⟩
      have hrun : swingRightOrStay t i = some (co2.next, true) := by
        simp [swingRightOrStay, prevIdx, nextIdx, cGet, hc, hc1, hc2, ho, hco,
          hco2]
      have hcan : canSwingRight t i = some true := by
        simp [canSwingRight, prevIdx, nextIdx, cGet, hc, hc1, hc2, ho]
      rw [hrun, hcan]
      refine ⟨rfl, ?_, rfl⟩
      intro k hk
      simp at hk
    | none =>
      have hrun : swingRightOrStay t i = some (c2.next, false) := by
        simp [swingRightOrStay, prevIdx, nextIdx, cGet, hc, hc1, hc2, ho]
      have hcan : canSwingRight t i = some false := by
        simp [canSwingRight, prevIdx, nextIdx, cGet, hc, hc1, hc2, ho]
      have h2i : c2.next = i := hcyc i c c1 c2 hc hc1 hc2
      rw [hrun, hcan, h2i]
      refine ⟨rfl, ?_, rfl⟩
      intro k hk
      simp at hk
      omega

/-- Witness for C3 at the unit square: corner 2 cannot swing left (boundary)
and the operations still return normally. -/
theorem c3_swing_or_stay_witness :
    ((swingLeftOrStay unitSquareMesh 2).map Prod.snd =
      canSwingLeft unitSquareMesh 2) ∧
    (swingLeftOrStay unitSquareMesh 2).isSome = true ∧
    ((swingRightOrStay unitSquareMesh 2).map Prod.snd =
      canSwingRight unitSquareMesh 2) := by
  have h := c3_swing_or_stay unitSquareMesh 2 (by decide)
    (nextRange_of_bool (by decide)) (cyc3_of_bool (by decide))
    (oppRange_of_bool (by decide))
  exact ⟨h.1.1, h.1.2.2, h.2.1⟩

/-! ## Claim C1: edge iteration -/

theorem getElem?_none_le {α : Type} {l : List α} {i : Nat}
    (h : l[i]? = none) : l.length ≤ i := by
  by_contra hlt
  push_neg at hlt
  rw [List.getElem?_eq_getElem hlt] at h
  cases h

theorem contains_false_not_mem {l : List Nat} {a : Nat}
    (h : l.contains a = false) : a ∉ l := by
  intro hm
  have he : l.elem a = true := List.elem_eq_true_of_mem hm
  rw [show l.contains a = l.elem a from rfl, he] at h
  cases h

theorem contains_true_mem {l : List Nat} {a : Nat}
    (h : l.contains a = true) : a ∈ l :=
  List.mem_of_elem_eq_true h

theorem oppAt_eq {t : CornerTable} {j : Nat} {cj : Corner}
    (hc : t.corners[j]? = some cj) : oppAt t j = cj.opposite := by
  simp [oppAt, hc]

theorem bool_false_not_true {b : Bool} (h : b = false) : ¬(b = true) := by
  simp [h]

theorem edgeRunF_succ_none {t : CornerTable} {i fuel : Nat} {vis : List Nat}
    (hc : t.corners[i]? = none) : edgeRunF t i vis (fuel + 1) = [] := by
  simp only [edgeRunF, hc]

theorem edgeRunF_succ_some {t : CornerTable} {i fuel : Nat} {vis : List Nat}
    {c : Corner} (hc : t.corners[i]? = some c) :
    edgeRunF t i vis (fuel + 1) =
      if c.deleted || vis.contains i then edgeRunF t (i + 1) vis fuel
      else i :: edgeRunF t (i + 1)
        (i :: (match c.opposite with | some o => [o] | none => []) ++ vis)
        fuel := by
  simp only [edgeRunF, hc]

theorem edgeRunF_elements (t : CornerTable) :
    ∀ (fuel i : Nat) (vis : List Nat), ∀ j ∈ edgeRunF t i vis fuel,
      i ≤ j ∧ j < t.corners.length ∧ cDeletedB t j = false ∧ j ∉ vis := by
  intro fuel
  induction fuel with
  | zero => intro i vis j hj; simp [edgeRunF] at hj
  | succ fuel ih =>
    intro i vis j hj
    cases hc : t.corners[i]? with
    | none => simp [edgeRunF, hc] at hj
    | some c =>
      have hi : i < t.corners.length := (List.getElem?_eq_some.mp hc).1
      cases hcond : (c.deleted || vis.contains i) with
      | true =>
        rw [edgeRunF_succ_some hc, if_pos hcond] at hj
        obtain ⟨h1, h2, h3, h4⟩ := ih (i + 1) vis j hj
        exact ⟨by omega, h2, h3, h4⟩
      | false =>
        obtain ⟨hdel, hcont⟩ := Bool.or_eq_false_iff.mp hcond
        rw [edgeRunF_succ_some hc, if_neg (bool_false_not_true hcond)] at hj
        rcases List.mem_cons.mp hj with rfl | hj2
        · exact ⟨le_refl _, hi, by simp [cDeletedB, hc, hdel],
            contains_false_not_mem hcont⟩
        · obtain ⟨h1, h2, h3, h4⟩ := ih _ _ j hj2
          refine ⟨by omega, h2, h3, fun hmem => h4 ?_⟩
          exact List.mem_cons_of_mem _ (List.mem_append_right _ hmem)

theorem edgeRunF_nodup (t : CornerTable) :
    ∀ (fuel i : Nat) (vis : List Nat), (edgeRunF t i vis fuel).Nodup := by
  intro fuel
  induction fuel with
  | zero => intro i vis; simp [edgeRunF]
  | succ fuel ih =>
    intro i vis
    cases hc : t.corners[i]? with
    | none => simp [edgeRunF, hc]
    | some c =>
      cases hcond : (c.deleted || vis.contains i) with
      | true =>
        rw [edgeRunF_succ_some hc, if_pos hcond]
        exact ih (i + 1) vis
      | false =>
        rw [edgeRunF_succ_some hc, if_neg (bool_false_not_true hcond)]
        refine List.Nodup.cons ?_ (ih _ _)
        intro hmem
        have h4 := (edgeRunF_elements t fuel _ _ i hmem).2.2.2
        exact h4 (List.mem_cons_self _ _)

theorem edgeRunF_coverage (t : CornerTable) :
    ∀ (fuel i : Nat) (vis : List Nat) (j : Nat) (cj : Corner),
      t.corners.length ≤ i + fuel →
      t.corners[j]? = some cj → cj.deleted = false → i ≤ j → j ∉ vis →
      j ∈ edgeRunF t i vis fuel ∨
        ∃ (a : Nat) (ca : Corner), a ∈ edgeRunF t i vis fuel ∧
          t.corners[a]? = some ca ∧ ca.opposite = some j := by
  intro fuel
  induction fuel with
  | zero =>
    intro i vis j cj hf hcj _ hij _
    have := (List.getElem?_eq_some.mp hcj).1
    omega
  | succ fuel ih =>
    intro i vis j cj hf hcj hdel hij hvis
    have hjlt : j < t.corners.length := (List.getElem?_eq_some.mp hcj).1
    cases hc : t.corners[i]? with
    | none =>
      have := getElem?_none_le hc
      omega
    | some c =>
      cases hcond : (c.deleted || vis.contains i) with
      | true =>
        rw [edgeRunF_succ_some hc, if_pos hcond]
        rcases Nat.eq_or_lt_of_le hij with rfl | hlt
        · rw [hc] at hcj
          injection hcj with hcc
          subst hcc
          rcases Bool.or_eq_true _ _ ▸ hcond with hd | hct
          · rw [hdel] at hd; cases hd
          · exact absurd (contains_true_mem hct) hvis
        · exact ih (i + 1) vis j cj (by omega) hcj hdel (by omega) hvis
      | false =>
        rw [edgeRunF_succ_some hc, if_neg (bool_false_not_true hcond)]
        rcases Nat.eq_or_lt_of_le hij with rfl | hlt
        · exact Or.inl (List.mem_cons_self _ _)
        · by_cases hjv : j ∈ i ::
            (match c.opposite with | some o => [o] | none => []) ++ vis
          · rcases List.mem_cons.mp hjv with rfl | hjv2
            · omega
            · rcases List.mem_append.mp hjv2 with hjo | hjv3
              · refine Or.inr ⟨i, c, List.mem_cons_self _ _, hc, ?_⟩
                cases hop : c.opposite with
                | some o =>
                  rw [hop] at hjo
                  simp only [List.mem_singleton] at hjo
                  rw [hjo]
                | none => rw [hop] at hjo; simp at hjo
              · exact absurd hjv3 hvis
          · rcases ih (i + 1) _ j cj (by omega) hcj hdel (by omega) hjv with
              h | ⟨a, ca, ha, hca, hopp⟩
            · exact Or.inl (List.mem_cons_of_mem _ h)
            · exact Or.inr ⟨a, ca, List.mem_cons_of_mem _ ha, hca, hopp⟩

theorem edgeRunF_no_opp_pairs (t : CornerTable)
    (hsym : OppositeSymmetric t) :
    ∀ (fuel i : Nat) (vis : List Nat) (a b : Nat) (ca : Corner),
      a ∈ edgeRunF t i vis fuel → b ∈ edgeRunF t i vis fuel → a ≠ b →
      t.corners[a]? = some ca → ca.opposite ≠ some b := by
  intro fuel
  induction fuel with
  | zero => intro i vis a b ca ha _ _ _; simp [edgeRunF] at ha
  | succ fuel ih =>
    intro i vis a b ca hain hbin hne hca hopp
    cases hc : t.corners[i]? with
    | none => rw [edgeRunF_succ_none hc] at hain; cases hain
    | some c =>
      cases hcond : (c.deleted || vis.contains i) with
      | true =>
        rw [edgeRunF_succ_some hc, if_pos hcond] at hain hbin
        exact ih (i + 1) vis a b ca hain hbin hne hca hopp
      | false =>
        rw [edgeRunF_succ_some hc, if_neg (bool_false_not_true hcond)] at hain hbin
        rcases List.mem_cons.mp hain with rfl | hain2
        · rcases List.mem_cons.mp hbin with rfl | hbin2
          · exact hne rfl
          · -- a = i yielded, b later: b was marked visited via a's opposite
            rw [hc] at hca
            injection hca with hcc
            subst hcc
            have hbvis := (edgeRunF_elements t fuel _ _ b hbin2).2.2.2
            apply hbvis
            rw [hopp]
            exact List.mem_cons_of_mem _
              (List.mem_append_left _ (List.mem_singleton.mpr rfl))
        · rcases List.mem_cons.mp hbin with rfl | hbin2
          · -- b = i yielded first, a later with opposite pointing at b
            have hsymm := hsym a b (by rw [oppAt_eq hca]; exact hopp)
            have havis := (edgeRunF_elements t fuel _ _ a hain2).2.2.2
            apply havis
            have : c.opposite = some a := by
              rw [← oppAt_eq hc]; exact hsymm.2
            rw [this]
            exact List.mem_cons_of_mem _
              (List.mem_append_left _ (List.mem_singleton.mpr rfl))
          · exact ih _ _ a b ca hain2 hbin2 hne hca hopp

/-- C1: on every corner table with a symmetric opposite relation, one full
traversal of the edge iterator yields one representative corner per
undirected edge: every stored non-deleted corner is yielded itself or has its
opposite yielded, no corner is yielded twice, and no two distinct yielded
corners are opposites of each other; on the unit-square mesh the iterator
yields exactly the 5 distinct edges `[0, 1, 2, 3, 5]`. -/
theorem c1_edge_iteration :
    (∀ t : CornerTable, OppositeSymmetric t →
      (∀ (j : Nat) (cj : Corner), t.corners[j]? = some cj →
        cj.deleted = false →
        j ∈ edgesTraversal t ∨
          ∃ o, cj.opposite = some o ∧ o ∈ edgesTraversal t) ∧
      (edgesTraversal t).Nodup ∧
      (∀ (a b : Nat) (ca : Corner), a ∈ edgesTraversal t →
        b ∈ edgesTraversal t → a ≠ b → t.corners[a]? = some ca →
        ca.opposite ≠ some b)) ∧
    edgesTraversal unitSquareMesh = [0, 1, 2, 3, 5] ∧
    (edgesTraversal unitSquareMesh).Nodup ∧
    (edgesTraversal unitSquareMesh).length = 5 := by
  refine ⟨?_, by rfl, by decide, by rfl⟩
  intro t hsym
  refine ⟨?_, edgeRunF_nodup t _ 0 [], ?_⟩
  · intro j cj hcj hdel
    rcases edgeRunF_coverage t (t.corners.length + 1) 0 [] j cj (by omega)
        hcj hdel (Nat.zero_le j) (List.not_mem_nil j) with h | ⟨a, ca, ha, hca, hopp⟩
    · exact Or.inl h
    · have hsymm := hsym a j (by rw [oppAt_eq hca]; exact hopp)
      refine Or.inr ⟨a, ?_, ha⟩
      rw [← oppAt_eq hcj]
      exact hsymm.2
  · intro a b ca hain hbin hne hca
    exact edgeRunF_no_opp_pairs t hsym _ 0 [] a b ca hain hbin hne hca

/-- Witness for C1's generic part at the unit square: its opposite relation
is symmetric, the traversal has no duplicates, and corner 4 (whose opposite
corner 1 is yielded) is covered. -/
theorem c1_edge_iteration_witness :
    (edgesTraversal unitSquareMesh).Nodup ∧
    (4 ∈ edgesTraversal unitSquareMesh ∨
      ∃ o, (Corner.mk 3 5 (some 1) false false).opposite = some o ∧
        o ∈ edgesTraversal unitSquareMesh) := by
  have hsym : OppositeSymmetric unitSquareMesh := oppSymm_of_bool (by decide)
  have h := c1_edge_iteration.1 unitSquareMesh hsym
  exact ⟨h.2.1, h.1 4 (Corner.mk 3 5 (some 1) false false) (by decide)
    (by decide)⟩

/-! ## Claims C2 and C7: one-ring queries -/

theorem vertexAt_eq {t : CornerTable} {k : Nat} {ck : Corner}
    (hc : t.corners[k]? = some ck) : vertexAt t k = ck.vertex := by
  simp [vertexAt, hc]

theorem nextIdx_eq_layout {t : CornerTable} (hW : ThreeCornerLayout t)
    {i : Nat} (hi : i < t.corners.length) :
    nextIdx t i = some (nextIdxN i) := by
  obtain ⟨c, hc⟩ : ∃ c, t.corners[i]? = some c :=
    ⟨_, List.getElem?_eq_getElem hi⟩
  simp [nextIdx, cGet, hc, hW.2 i c hc]

theorem prevIdx_eq_layout {t : CornerTable} (hW : ThreeCornerLayout t)
    {i : Nat} (hi : i < t.corners.length) :
    prevIdx t i = some (prevIdxN i) := by
  have h1 := nextIdx_eq_layout hW hi
  have h2 := nextIdx_eq_layout hW (nextIdxN_lt hW.1 hi)
  simp [prevIdx, h1, h2, nextIdxN_nextIdxN]

theorem swingLeftN_inv {t : CornerTable} {a b : Nat}
    (h : swingLeftN t a = some b) :
    oppAt t (nextIdxN a) = some (prevIdxN b) := by
  unfold swingLeftN at h
  cases hoa : oppAt t (nextIdxN a) with
  | none => rw [hoa] at h; cases h
  | some o =>
    rw [hoa] at h
    simp only [Option.map_some'] at h
    injection h with h
    rw [← h, prevIdxN_nextIdxN]

theorem swingRightN_inv {t : CornerTable} {a b : Nat}
    (h : swingRightN t a = some b) :
    oppAt t (prevIdxN a) = some (nextIdxN b) := by
  unfold swingRightN at h
  cases hoa : oppAt t (prevIdxN a) with
  | none => rw [hoa] at h; cases h
  | some o =>
    rw [hoa] at h
    simp only [Option.map_some'] at h
    injection h with h
    rw [← h, nextIdxN_prevIdxN]

theorem getLastD_cons_cons (a b : Nat) (l : List Nat) (d d' : Nat) :
    (a :: b :: l).getLastD d = (b :: l).getLastD d' := by
  simp only [List.getLastD_cons]

/-- The first one-ring loop along a swing-left chain that reaches the left
border: it visits exactly the chain (through `vf` at the `previous` position
of each chain corner) and reports the border. -/
theorem ringLoop1_boundary (t : CornerTable) (hW : ThreeCornerLayout t)
    (vf : Nat → Option Nat) (g : Nat → Nat) (start : Nat) :
    ∀ (cs : List Nat) (fuel : Nat), cs ≠ [] →
      (∀ c ∈ cs, c < t.corners.length) →
      (∀ c ∈ cs, vf (prevIdxN c) = some (g c)) →
      List.Chain' (SwingLeftRel t) cs →
      oppAt t (nextIdxN (cs.getLastD 0)) = none →
      (∀ x ∈ cs.drop 1, prevIdxN x ≠ start) →
      cs.length ≤ fuel →
      ringLoop1 t vf start (prevIdxN (cs.headD 0)) fuel =
        some (cs.map g, true) := by
  intro cs
  induction cs with
  | nil => intro fuel h; exact absurd rfl h
  | cons c cs2 ih =>
    intro fuel _ hrange hvf hchain hend hnot hfuel
    obtain ⟨f2, rfl⟩ : ∃ f2, fuel = f2 + 1 := by
      cases fuel with
      | zero => simp at hfuel
      | succ f2 => exact ⟨f2, rfl⟩
    have hclt : c < t.corners.length := hrange c (List.mem_cons_self _ _)
    have hplt : prevIdxN c < t.corners.length := prevIdxN_lt hW.1 hclt
    have hvfc : vf (prevIdxN c) = some (g c) := hvf c (List.mem_cons_self _ _)
    have hprev : prevIdx t (prevIdxN c) = some (nextIdxN c) := by
      rw [prevIdx_eq_layout hW hplt, prevIdxN_prevIdxN]
    have hnlt : nextIdxN c < t.corners.length := nextIdxN_lt hW.1 hclt
    obtain ⟨cp, hcp⟩ : ∃ cp, t.corners[nextIdxN c]? = some cp :=
      ⟨_, List.getElem?_eq_getElem hnlt⟩
    cases cs2 with
    | nil =>
      have hopp : cp.opposite = none := by
        rw [← oppAt_eq hcp]
        simpa [List.getLastD_cons] using hend
      simp only [List.headD_cons, ringLoop1, hvfc, hprev, hcp, hopp]
      simp
    | cons c2 cs3 =>
      have hswing : SwingLeftRel t c c2 := (List.chain'_cons.mp hchain).1
      have ho : oppAt t (nextIdxN c) = some (prevIdxN c2) := swingLeftN_inv hswing
      have hcpo : cp.opposite = some (prevIdxN c2) := by
        rw [← oppAt_eq hcp]; exact ho
      have hc2mem : c2 ∈ (c :: c2 :: cs3).drop 1 := List.mem_cons_self _ _
      have honot : prevIdxN c2 ≠ start := hnot c2 hc2mem
      have hrec := ih f2 (by simp)
        (fun x hx => hrange x (List.mem_cons_of_mem _ hx))
        (fun x hx => hvf x (List.mem_cons_of_mem _ hx))
        (List.Chain'.tail hchain)
        (by rw [getLastD_cons_cons c c2 cs3 0 0] at hend; exact hend)
        (fun x hx => hnot x (List.mem_of_mem_drop (n := 1)
          (by simpa using hx)))
        (by simp at hfuel ⊢; omega)
      rw [List.headD_cons] at hrec
      simp only [List.headD_cons, ringLoop1, hvfc, hprev, hcp, hcpo]
      rw [if_neg honot, hrec]
      simp

/-- The first one-ring loop along a closed swing-left cycle: it visits
exactly the chain and stops silently on returning to the start. -/
theorem ringLoop1_cyclic (t : CornerTable) (hW : ThreeCornerLayout t)
    (vf : Nat → Option Nat) (g : Nat → Nat) (start cstart : Nat) :
    ∀ (cs : List Nat) (fuel : Nat), cs ≠ [] →
      (∀ c ∈ cs, c < t.corners.length) →
      (∀ c ∈ cs, vf (prevIdxN c) = some (g c)) →
      List.Chain' (SwingLeftRel t) cs →
      swingLeftN t (cs.getLastD 0) = some cstart →
      prevIdxN cstart = start →
      (∀ x ∈ cs.drop 1, prevIdxN x ≠ start) →
      cs.length ≤ fuel →
      ringLoop1 t vf start (prevIdxN (cs.headD 0)) fuel =
        some (cs.map g, false) := by
  intro cs
  induction cs with
  | nil => intro fuel h; exact absurd rfl h
  | cons c cs2 ih =>
    intro fuel _ hrange hvf hchain hlast hstart hnot hfuel
    obtain ⟨f2, rfl⟩ : ∃ f2, fuel = f2 + 1 := by
      cases fuel with
      | zero => simp at hfuel
      | succ f2 => exact ⟨f2, rfl⟩
    have hclt : c < t.corners.length := hrange c (List.mem_cons_self _ _)
    have hplt : prevIdxN c < t.corners.length := prevIdxN_lt hW.1 hclt
    have hvfc : vf (prevIdxN c) = some (g c) := hvf c (List.mem_cons_self _ _)
    have hprev : prevIdx t (prevIdxN c) = some (nextIdxN c) := by
      rw [prevIdx_eq_layout hW hplt, prevIdxN_prevIdxN]
    have hnlt : nextIdxN c < t.corners.length := nextIdxN_lt hW.1 hclt
    obtain ⟨cp, hcp⟩ : ∃ cp, t.corners[nextIdxN c]? = some cp :=
      ⟨_, List.getElem?_eq_getElem hnlt⟩
    cases cs2 with
    | nil =>
      have hlast1 : swingLeftN t c = some cstart := by
        simpa [List.getLastD_cons] using hlast
      have ho : oppAt t (nextIdxN c) = some (prevIdxN cstart) :=
        swingLeftN_inv hlast1
      have hcpo : cp.opposite = some (prevIdxN cstart) := by
        rw [← oppAt_eq hcp]; exact ho
      simp only [List.headD_cons, ringLoop1, hvfc, hprev, hcp, hcpo]
      rw [if_pos hstart]
      simp
    | cons c2 cs3 =>
      have hswing : SwingLeftRel t c c2 := (List.chain'_cons.mp hchain).1
      have ho : oppAt t (nextIdxN c) = some (prevIdxN c2) := swingLeftN_inv hswing
      have hcpo : cp.opposite = some (prevIdxN c2) := by
        rw [← oppAt_eq hcp]; exact ho
      have honot : prevIdxN c2 ≠ start := hnot c2 (List.mem_cons_self _ _)
      have hrec := ih f2 (by simp)
        (fun x hx => hrange x (List.mem_cons_of_mem _ hx))
        (fun x hx => hvf x (List.mem_cons_of_mem _ hx))
        (List.Chain'.tail hchain)
        (by rw [getLastD_cons_cons c c2 cs3 0 0] at hlast; exact hlast)
        hstart
        (fun x hx => hnot x (List.mem_of_mem_drop (n := 1)
          (by simpa using hx)))
        (by simp at hfuel ⊢; omega)
      rw [List.headD_cons] at hrec
      simp only [List.headD_cons, ringLoop1, hvfc, hprev, hcp, hcpo]
      rw [if_neg honot, hrec]
      simp

/-- The second one-ring loop along a swing-right chain that reaches the
right border: it visits exactly the chain (through `vf` at the `next`
position of each chain corner). -/
theorem ringLoop2_chain (t : CornerTable) (hW : ThreeCornerLayout t)
    (vf : Nat → Option Nat) (g : Nat → Nat) :
    ∀ (ds : List Nat) (fuel : Nat), ds ≠ [] →
      (∀ d ∈ ds, d < t.corners.length) →
      (∀ d ∈ ds, vf (nextIdxN d) = some (g d)) →
      List.Chain' (SwingRightRel t) ds →
      oppAt t (prevIdxN (ds.getLastD 0)) = none →
      ds.length ≤ fuel →
      ringLoop2 t vf (nextIdxN (ds.headD 0)) fuel = some (ds.map g) := by
  intro ds
  induction ds with
  | nil => intro fuel h; exact absurd rfl h
  | cons d ds2 ih =>
    intro fuel _ hrange hvf hchain hend hfuel
    obtain ⟨f2, rfl⟩ : ∃ f2, fuel = f2 + 1 := by
      cases fuel with
      | zero => simp at hfuel
      | succ f2 => exact ⟨f2, rfl⟩
    have hdlt : d < t.corners.length := hrange d (List.mem_cons_self _ _)
    have hnd : nextIdxN d < t.corners.length := nextIdxN_lt hW.1 hdlt
    have hvfd : vf (nextIdxN d) = some (g d) := hvf d (List.mem_cons_self _ _)
    have hnext : nextIdx t (nextIdxN d) = some (prevIdxN d) := by
      rw [nextIdx_eq_layout hW hnd, nextIdxN_nextIdxN]
    have hpd : prevIdxN d < t.corners.length := prevIdxN_lt hW.1 hdlt
    obtain ⟨cn, hcn⟩ : ∃ cn, t.corners[prevIdxN d]? = some cn :=
      ⟨_, List.getElem?_eq_getElem hpd⟩
    cases ds2 with
    | nil =>
      have hopp : cn.opposite = none := by
        rw [← oppAt_eq hcn]
        simpa [List.getLastD_cons] using hend
      simp only [List.headD_cons, ringLoop2, hvfd, hnext, hcn, hopp]
      simp
    | cons d2 ds3 =>
      have hswing : SwingRightRel t d d2 := (List.chain'_cons.mp hchain).1
      have ho : oppAt t (prevIdxN d) = some (nextIdxN d2) := swingRightN_inv hswing
      have hcno : cn.opposite = some (nextIdxN d2) := by
        rw [← oppAt_eq hcn]; exact ho
      have hrec := ih f2 (by simp)
        (fun x hx => hrange x (List.mem_cons_of_mem _ hx))
        (fun x hx => hvf x (List.mem_cons_of_mem _ hx))
        (List.Chain'.tail hchain)
        (by rw [getLastD_cons_cons d d2 ds3 0 0] at hend; exact hend)
        (by simp at hfuel ⊢; omega)
      rw [List.headD_cons] at hrec
      simp only [List.headD_cons, ringLoop2, hvfd, hnext, hcn, hcno]
      rw [hrec]
      simp

theorem vf_corner_at_prev {t : CornerTable} (hW : ThreeCornerLayout t)
    {c : Nat} (hc : c < t.corners.length) :
    (cGet t (prevIdxN c)).map Corner.next = some c := by
  have hp : prevIdxN c < t.corners.length := prevIdxN_lt hW.1 hc
  obtain ⟨cp, hcp⟩ : ∃ cp, t.corners[prevIdxN c]? = some cp :=
    ⟨_, List.getElem?_eq_getElem hp⟩
  simp [cGet, hcp, hW.2 _ _ hcp, nextIdxN_prevIdxN]

theorem vf_vertex_at_prev {t : CornerTable} (hW : ThreeCornerLayout t)
    {c : Nat} (hc : c < t.corners.length) :
    (cGet t (prevIdxN c)).map Corner.vertex =
      some (vertexAt t (prevIdxN c)) := by
  have hp : prevIdxN c < t.corners.length := prevIdxN_lt hW.1 hc
  obtain ⟨cp, hcp⟩ : ∃ cp, t.corners[prevIdxN c]? = some cp :=
    ⟨_, List.getElem?_eq_getElem hp⟩
  simp [cGet, hcp, vertexAt_eq hcp]

theorem vf_vertex_at_next {t : CornerTable} (hW : ThreeCornerLayout t)
    {c : Nat} (hc : c < t.corners.length) :
    (cGet t (nextIdxN c)).map Corner.vertex =
      some (vertexAt t (nextIdxN c)) := by
  have hp : nextIdxN c < t.corners.length := nextIdxN_lt hW.1 hc
  obtain ⟨cp, hcp⟩ : ∃ cp, t.corners[nextIdxN c]? = some cp :=
    ⟨_, List.getElem?_eq_getElem hp⟩
  simp [cGet, hcp, vertexAt_eq hcp]

theorem vf_prev_at_next {t : CornerTable} (hW : ThreeCornerLayout t)
    {d : Nat} (hd : d < t.corners.length) :
    prevIdx t (nextIdxN d) = some d := by
  rw [prevIdx_eq_layout hW (nextIdxN_lt hW.1 hd), prevIdxN_nextIdxN]

/-- C2 (amended): on a corner table with the three-corner triangle layout,
for a non-deleted vertex `v` whose non-deleted corners form a single
swing-linked fan starting at its representative corner — a closed cycle `cs`
(interior) or a left chain `cs` plus right chain `ds` between two borders
(boundary) — `corners_around_vertex` visits exactly the fan corners in swing
order, `faces_around_vertex` visits one corner of each fan corner's triangle
in the same order, and `vertices_around_vertex` visits the corresponding ring
vertices; no fan corner is visited twice and none is skipped. -/
theorem c2_one_ring_amended :
    (∀ (t : CornerTable) (v c0 : Nat) (cs : List Nat) (fuel : Nat),
      ThreeCornerLayout t → IsFanInterior t v c0 cs → cs.length ≤ fuel →
      cornersAroundVertexF t v fuel = some cs ∧
      facesAroundVertexF t v fuel = some (cs.map prevIdxN) ∧
      verticesAroundVertexF t v fuel =
        some (cs.map fun c => vertexAt t (prevIdxN c)) ∧
      cs.Nodup ∧
      (∀ j, j < t.corners.length → incidentB t v j = true → j ∈ cs) ∧
      (cs.map prevIdxN).map (fun x => x / 3) = cs.map (fun x => x / 3)) ∧
    (∀ (t : CornerTable) (v c0 : Nat) (cs ds : List Nat) (fuel : Nat),
      ThreeCornerLayout t → IsFanBoundary t v c0 cs ds →
      cs.length ≤ fuel → ds.length + 1 ≤ fuel →
      cornersAroundVertexF t v fuel = some (cs ++ ds) ∧
      facesAroundVertexF t v fuel =
        some (cs.map prevIdxN ++ ds.map nextIdxN) ∧
      verticesAroundVertexF t v fuel =
        some ((cs.map fun c => vertexAt t (prevIdxN c)) ++
          vertexAt t (nextIdxN c0) ::
            (ds.map fun d => vertexAt t (nextIdxN d))) ∧
      (cs ++ ds).Nodup ∧
      (∀ j, j < t.corners.length → incidentB t v j = true → j ∈ cs ++ ds) ∧
      (cs.map prevIdxN ++ ds.map nextIdxN).map (fun x => x / 3) =
        (cs ++ ds).map (fun x => x / 3)) := by
  constructor
  · -- interior
    intro t v c0 cs fuel hW hFan hfuel
    obtain ⟨hrep, hne, hhead, hchain, hcyc, hmemb, hcomp, hnodup⟩ := hFan
    obtain ⟨vert, hvert, hvdel, hvc0⟩ := vertexRep_of_bool hrep
    obtain ⟨rest, rfl⟩ : ∃ rest, cs = c0 :: rest := by
      cases cs with
      | nil => exact absurd rfl hne
      | cons a rest =>
        rw [List.head?_cons] at hhead
        injection hhead with ha
        exact ⟨rest, by rw [ha]⟩
    have hrange : ∀ c ∈ c0 :: rest, c < t.corners.length :=
      fun c hc => incident_lt (hmemb c hc)
    have hc0lt : c0 < t.corners.length :=
      hrange c0 (List.mem_cons_self _ _)
    have hnot : ∀ x ∈ (c0 :: rest).drop 1, prevIdxN x ≠ prevIdxN c0 := by
      intro x hx heq
      have hxc0 : x = c0 := prevIdxN_inj heq
      subst hxc0
      exact (List.nodup_cons.mp hnodup).1 (by simpa using hx)
    have hstart : prevIdx t c0 = some (prevIdxN c0) :=
      prevIdx_eq_layout hW hc0lt
    have hmapdiv : ((c0 :: rest).map prevIdxN).map (fun x => x / 3) =
        (c0 :: rest).map (fun x => x / 3) := by
      rw [List.map_map]
      exact List.map_congr_left fun x _ => prevIdxN_div3 x
    -- the three loop results
    have hloopC := ringLoop1_cyclic t hW
      (fun c => (cGet t c).map Corner.next) id (prevIdxN c0) c0
      (c0 :: rest) fuel hne hrange
      (fun c hc => vf_corner_at_prev hW (hrange c hc))
      hchain hcyc rfl hnot hfuel
    have hloopF := ringLoop1_cyclic t hW
      (fun c => some c) prevIdxN (prevIdxN c0) c0
      (c0 :: rest) fuel hne hrange
      (fun c _ => rfl)
      hchain hcyc rfl hnot hfuel
    have hloopV := ringLoop1_cyclic t hW
      (fun c => (cGet t c).map Corner.vertex)
      (fun c => vertexAt t (prevIdxN c)) (prevIdxN c0) c0
      (c0 :: rest) fuel hne hrange
      (fun c hc => vf_vertex_at_prev hW (hrange c hc))
      hchain hcyc rfl hnot hfuel
    rw [List.headD_cons] at hloopC hloopF hloopV
    refine ⟨?_, ?_, ?_, hnodup,
      fun j hj hb => hcomp j (List.mem_range.mpr hj) hb, hmapdiv⟩
    · simp only [cornersAroundVertexF, vGet, hvert, Option.some_bind, hvc0,
        hstart, hloopC]
      simp
    · simp only [facesAroundVertexF, vGet, hvert, Option.some_bind, hvc0,
        hstart, hloopF]
      simp
    · simp only [verticesAroundVertexF, vGet, hvert, Option.some_bind, hvc0,
        hstart, hloopV]
      simp
  · -- boundary
    intro t v c0 cs ds fuel hW hFan hfuel1 hfuel2
    obtain ⟨hrep, hne, hhead, hchain, hlend, hrchain, hrend, hmemb, hcomp,
      hnodup⟩ := hFan
    obtain ⟨vert, hvert, hvdel, hvc0⟩ := vertexRep_of_bool hrep
    obtain ⟨rest, rfl⟩ : ∃ rest, cs = c0 :: rest := by
      cases cs with
      | nil => exact absurd rfl hne
      | cons a rest =>
        rw [List.head?_cons] at hhead
        injection hhead with ha
        exact ⟨rest, by rw [ha]⟩
    have hrangeAll : ∀ c ∈ (c0 :: rest) ++ ds, c < t.corners.length :=
      fun c hc => incident_lt (hmemb c hc)
    have hrange : ∀ c ∈ c0 :: rest, c < t.corners.length :=
      fun c hc => hrangeAll c (List.mem_append_left _ hc)
    have hrangeD : ∀ d ∈ ds, d < t.corners.length :=
      fun d hd => hrangeAll d (List.mem_append_right _ hd)
    have hc0lt : c0 < t.corners.length :=
      hrange c0 (List.mem_cons_self _ _)
    have hnodupL : (c0 :: rest).Nodup := (List.nodup_append.mp hnodup).1
    have hnot : ∀ x ∈ (c0 :: rest).drop 1, prevIdxN x ≠ prevIdxN c0 := by
      intro x hx heq
      have hxc0 : x = c0 := prevIdxN_inj heq
      subst hxc0
      exact (List.nodup_cons.mp hnodupL).1 (by simpa using hx)
    have hstart : prevIdx t c0 = some (prevIdxN c0) :=
      prevIdx_eq_layout hW hc0lt
    have hplt : prevIdxN c0 < t.corners.length := prevIdxN_lt hW.1 hc0lt
    obtain ⟨cb, hcb⟩ : ∃ cb, t.corners[prevIdxN c0]? = some cb :=
      ⟨_, List.getElem?_eq_getElem hplt⟩
    have hmapdiv : (((c0 :: rest).map prevIdxN) ++ ds.map nextIdxN).map
        (fun x => x / 3) = ((c0 :: rest) ++ ds).map (fun x => x / 3) := by
      rw [List.map_append, List.map_append, List.map_map, List.map_map]
      congr 1
      · exact List.map_congr_left fun x _ => prevIdxN_div3 x
      · exact List.map_congr_left fun x _ => nextIdxN_div3 x
    have hloopC := ringLoop1_boundary t hW
      (fun c => (cGet t c).map Corner.next) id (prevIdxN c0)
      (c0 :: rest) fuel hne hrange
      (fun c hc => vf_corner_at_prev hW (hrange c hc))
      hchain hlend hnot hfuel1
    have hloopF := ringLoop1_boundary t hW
      (fun c => some c) prevIdxN (prevIdxN c0)
      (c0 :: rest) fuel hne hrange
      (fun c _ => rfl)
      hchain hlend hnot hfuel1
    have hloopV := ringLoop1_boundary t hW
      (fun c => (cGet t c).map Corner.vertex)
      (fun c => vertexAt t (prevIdxN c)) (prevIdxN c0)
      (c0 :: rest) fuel hne hrange
      (fun c hc => vf_vertex_at_prev hW (hrange c hc))
      hchain hlend hnot hfuel1
    rw [List.headD_cons] at hloopC hloopF hloopV
    -- the vertices loop 2 runs over the whole chain c0 :: ds
    have hloopV2 := ringLoop2_chain t hW
      (fun c => (cGet t c).map Corner.vertex)
      (fun d => vertexAt t (nextIdxN d))
      (c0 :: ds) fuel (by simp)
      (fun d hd => by
        rcases List.mem_cons.mp hd with rfl | hd2
        · exact hc0lt
        · exact hrangeD d hd2)
      (fun d hd => by
        rcases List.mem_cons.mp hd with rfl | hd2
        · exact vf_vertex_at_next hW hc0lt
        · exact vf_vertex_at_next hW (hrangeD d hd2))
      hrchain hrend (by simpa using hfuel2)
    rw [List.headD_cons] at hloopV2
    have hprevstart : prevIdx t (prevIdxN c0) = some (nextIdxN c0) := by
      rw [prevIdx_eq_layout hW hplt, prevIdxN_prevIdxN]
    refine ⟨?_, ?_, ?_, hnodup,
      fun j hj hb => hcomp j (List.mem_range.mpr hj) hb, hmapdiv⟩
    · -- corners
      have hcbget : cGet t (prevIdxN c0) = some cb := by simp [cGet, hcb]
      simp only [cornersAroundVertexF, vGet, hvert, Option.some_bind, hvc0,
        hstart, hloopC]
      cases ds with
      | nil =>
        have hcbo : cb.opposite = none := by
          rw [← oppAt_eq hcb]
          simpa [List.getLastD_cons] using hrend
        simp [hcbget, hcbo]
      | cons d1 ds2 =>
        have hswing : SwingRightRel t c0 d1 := (List.chain'_cons.mp hrchain).1
        have ho : oppAt t (prevIdxN c0) = some (nextIdxN d1) :=
          swingRightN_inv hswing
        have hcbo : cb.opposite = some (nextIdxN d1) := by
          rw [← oppAt_eq hcb]; exact ho
        have hloop2 := ringLoop2_chain t hW (fun c => prevIdx t c) id
          (d1 :: ds2) fuel (by simp)
          (fun d hd => hrangeD d hd)
          (fun d hd => vf_prev_at_next hW (hrangeD d hd))
          (List.Chain'.tail hrchain)
          (by rw [getLastD_cons_cons c0 d1 ds2 0 0] at hrend; exact hrend)
          (by simp at hfuel2 ⊢; omega)
        rw [List.headD_cons] at hloop2
        simp [hcbget, hcbo, hloop2]
    · -- faces
      have hcbget : cGet t (prevIdxN c0) = some cb := by simp [cGet, hcb]
      simp only [facesAroundVertexF, vGet, hvert, Option.some_bind, hvc0,
        hstart, hloopF]
      cases ds with
      | nil =>
        have hcbo : cb.opposite = none := by
          rw [← oppAt_eq hcb]
          simpa [List.getLastD_cons] using hrend
        simp [hcbget, hcbo]
      | cons d1 ds2 =>
        have hswing : SwingRightRel t c0 d1 := (List.chain'_cons.mp hrchain).1
        have ho : oppAt t (prevIdxN c0) = some (nextIdxN d1) :=
          swingRightN_inv hswing
        have hcbo : cb.opposite = some (nextIdxN d1) := by
          rw [← oppAt_eq hcb]; exact ho
        have hloop2 := ringLoop2_chain t hW (fun c => some c) nextIdxN
          (d1 :: ds2) fuel (by simp)
          (fun d hd => hrangeD d hd)
          (fun d _ => rfl)
          (List.Chain'.tail hrchain)
          (by rw [getLastD_cons_cons c0 d1 ds2 0 0] at hrend; exact hrend)
          (by simp at hfuel2 ⊢; omega)
        rw [List.headD_cons] at hloop2
        simp [hcbget, hcbo, hloop2]
    · -- vertices
      simp only [verticesAroundVertexF, vGet, hvert, Option.some_bind, hvc0,
        hstart, hloopV, hprevstart, hloopV2]
      simp

/-- Counterexample to C2 as stated: the bowtie mesh satisfies opposite
symmetry, the three-corner layout and valid representative corners, vertex 0
is non-deleted, corner 0 is a non-deleted corner of vertex 0, yet
`corners_around_vertex` visits only `[3]` — corner 0 is skipped because the
two triangles at vertex 0 form two disjoint fans. -/
theorem c2_one_ring_counterexample :
    OppositeSymmetric bowtieMesh ∧ ThreeCornerLayout bowtieMesh ∧
    ValidReps bowtieMesh ∧ vDeletedB bowtieMesh 0 = false ∧
    incidentB bowtieMesh 0 0 = true ∧
    collectCornersAroundVertex bowtieMesh 0 = some [3] ∧
    0 ∉ ([3] : List Nat) := by
  refine ⟨oppSymm_of_bool (by decide), threeLayout_of_bool (by decide),
    validReps_of_bool (by decide), by decide, by decide, by rfl, by decide⟩

/-- Witness for the amended C2 at the cross-square mesh: the interior part at
center vertex 4 (fan `[11, 2, 5, 8]`) and the boundary part at corner vertex
0 (left chain `[10]`, right chain `[0]`). -/
theorem c2_one_ring_amended_witness :
    cornersAroundVertexF crossSquareMesh 4 13 = some [11, 2, 5, 8] ∧
    verticesAroundVertexF crossSquareMesh 4 13 = some [0, 1, 2, 3] ∧
    cornersAroundVertexF crossSquareMesh 0 13 = some [10, 0] ∧
    verticesAroundVertexF crossSquareMesh 0 13 = some [3, 4, 1] ∧
    facesAroundVertexF crossSquareMesh 0 13 = some [9, 1] := by
  have hI := c2_one_ring_amended.1 crossSquareMesh 4 11 [11, 2, 5, 8] 13
    (threeLayout_of_bool (by decide)) (by decide) (by decide)
  have hB := c2_one_ring_amended.2 crossSquareMesh 0 10 [10] [0] 13
    (threeLayout_of_bool (by decide)) (by decide) (by decide) (by decide)
  refine ⟨hI.1, ?_, hB.1, ?_, ?_⟩
  · have := hI.2.2.1
    simpa using this
  · have := hB.2.2.1
    simpa using this
  · have := hB.2.1
    simpa using this

/-- C7: on the cross-square mesh, `corners_around_vertex` at the interior
center vertex 4 visits exactly the corners `[11, 2, 5, 8]` in that order, and
`vertices_around_vertex` at the boundary vertex 0 visits exactly the vertices
`[3, 4, 1]` in that order. -/
theorem c7_cross_square_scenario :
    collectCornersAroundVertex crossSquareMesh 4 = some [11, 2, 5, 8] ∧
    collectVerticesAroundVertex crossSquareMesh 0 = some [3, 4, 1] :=
  ⟨rfl, rfl⟩

end BabyShark
